import Mathlib

set_option maxHeartbeats 2000000

namespace Maple

/-!
Shallow embedding of the semantic-analysis core of the maplelang compiler.

Part 1 models the type-variable context of src/src/sema/tctx.rs together
with the type term algebra it consumes.  RefStr is modelled as String,
DefId as Nat, IsMut as Bool, the tvars vector as a List Ty.  Note that in
tctx.rs every pattern over the Func constructor carries exactly two fields,
a parameter list and a return type; the embedding follows that file.
-/

/-- Type terms exactly as consumed by src/src/sema/tctx.rs. -/
inductive Ty where
  | Bool | Uint8 | Int8 | Uint16 | Int16 | Uint32 | Int32 | Uint64 | Int64
  | Uintn | Intn | Float | Double
  | Inst (name : String) (defId : Nat) (targs : List Ty)
  | Func (params : List (String × Ty)) (ret : Ty)
  | Ptr (isMut : Bool) (base : Ty)
  | Arr (count : Nat) (elem : Ty)
  | Tuple (params : List (String × Ty))
  | TVar (idx : Nat)
  | BoundAny | BoundNum | BoundInt | BoundFlt

/-- Outcome of a failing run of unify.  In tctx.rs the Err return with
CannotUnifyError is commented out: the only failure path is the panic macro
at the end of the function, modelled by the panicked constructor, which
propagates outward exactly like a Rust panic unwinds.  stuck models fuel
exhaustion or an out-of-range tvars index, neither of which occurs on
well-formed contexts. -/
inductive UErr where
  | panicked (a b : Ty)
  | stuck

/-- TVarCtx::root from tctx.rs: follow parent links, then write the root
back into every visited slot (path compression).  The Rust code recurses on
parent links without a bound; fuel makes the model total. -/
def root (fuel : Nat) (v : List Ty) (idx : Nat) : Option (Nat × List Ty) :=
  match fuel with
  | 0 => none
  | fuel + 1 =>
    match v[idx]? with
    | some (Ty.TVar parent) =>
      match root fuel v parent with
      | some (r, v1) => some (r, v1.set idx (Ty.TVar r))
      | none => none
    | some _ => some (idx, v)
    | none => none

/-- The numeric literal types of the BoundNum rule in unify. -/
def isNumericTy : Ty → Bool
  | .Uint8 | .Int8 | .Uint16 | .Int16 | .Uint32 | .Int32 | .Uint64 | .Int64
  | .Uintn | .Intn | .Float | .Double => true
  | _ => false

/-- The integer literal types of the BoundInt rule in unify. -/
def isIntTy : Ty → Bool
  | .Uint8 | .Int8 | .Uint16 | .Int16 | .Uint32 | .Int32 | .Uint64 | .Int64
  | .Uintn | .Intn => true
  | _ => false

/-- The right-hand set of the first BoundNum disjunct in unify
(numeric types or the BoundNum, BoundInt, BoundFlt bounds). -/
def numRight : Ty → Bool
  | .BoundNum | .BoundInt | .BoundFlt => true
  | t => isNumericTy t

/-- The left-hand set of the second BoundNum disjunct in unify
(numeric types or the BoundInt, BoundFlt bounds). -/
def numLeft : Ty → Bool
  | .BoundInt | .BoundFlt => true
  | t => isNumericTy t

/-- The right-hand set of the first BoundInt disjunct in unify. -/
def intRight : Ty → Bool
  | .BoundInt => true
  | t => isIntTy t

/-- The right-hand set of the first BoundFlt disjunct in unify. -/
def fltRight : Ty → Bool
  | .Float | .Double | .BoundFlt => true
  | _ => false

/-- The left-hand set of the second BoundFlt disjunct in unify. -/
def fltLeft : Ty → Bool
  | .Float | .Double => true
  | _ => false

mutual

/-- TVarCtx::unify from src/src/sema/tctx.rs, lines 63 to 177.  The arms
appear in source order; Rust pattern guards become if-then-else whose else
branch reaches the same final panic the guarded fall-through reaches.
Fuel is consumed only in the TVar arms, whose recursion goes through bounds
stored in the context rather than through subterms. -/
def unify (fuel : Nat) (v : List Ty) (ty1 ty2 : Ty) : Except UErr (Ty × List Ty) :=
  match ty1, ty2 with
  | .Bool, .Bool => .ok (.Bool, v)
  | .Uint8, .Uint8 => .ok (.Uint8, v)
  | .Int8, .Int8 => .ok (.Int8, v)
  | .Uint16, .Uint16 => .ok (.Uint16, v)
  | .Int16, .Int16 => .ok (.Int16, v)
  | .Uint32, .Uint32 => .ok (.Uint32, v)
  | .Int32, .Int32 => .ok (.Int32, v)
  | .Uint64, .Uint64 => .ok (.Uint64, v)
  | .Int64, .Int64 => .ok (.Int64, v)
  | .Uintn, .Uintn => .ok (.Uintn, v)
  | .Intn, .Intn => .ok (.Intn, v)
  | .Float, .Float => .ok (.Float, v)
  | .Double, .Double => .ok (.Double, v)
  | .Inst name defId targs1, .Inst _ defId2 targs2 =>
    if defId = defId2 then
      match unifyArgs fuel v targs1 targs2 with
      | .ok (targs, v1) => .ok (.Inst name defId targs, v1)
      | .error e => .error e
    else .error (.panicked ty1 ty2)
  | .Func par1 ret1, .Func par2 ret2 =>
    if par1.length = par2.length then
      match unifyParams fuel v par1 par2 with
      | .ok (some (par, v1)) =>
        match unify fuel v1 ret1 ret2 with
        | .ok (ret, v2) => .ok (.Func par ret, v2)
        | .error e => .error e
      | .ok none => .error (.panicked ty1 ty2)
      | .error e => .error e
    else .error (.panicked ty1 ty2)
  | .Ptr isMut1 base1, .Ptr isMut2 base2 =>
    if isMut1 = isMut2 then
      match unify fuel v base1 base2 with
      | .ok (base, v1) => .ok (.Ptr isMut1 base, v1)
      | .error e => .error e
    else .error (.panicked ty1 ty2)
  | .Arr siz1 elem1, .Arr siz2 elem2 =>
    if siz1 = siz2 then
      match unify fuel v elem1 elem2 with
      | .ok (elem, v1) => .ok (.Arr siz1 elem, v1)
      | .error e => .error e
    else .error (.panicked ty1 ty2)
  | .Tuple par1, .Tuple par2 =>
    if par1.length = par2.length then
      match unifyParams fuel v par1 par2 with
      | .ok (some (par, v1)) => .ok (.Tuple par, v1)
      | .ok none => .error (.panicked ty1 ty2)
      | .error e => .error e
    else .error (.panicked ty1 ty2)
  | .TVar idx1, .TVar idx2 =>
    match fuel with
    | 0 => .error .stuck
    | fuel1 + 1 =>
      match root fuel1 v idx1 with
      | none => .error .stuck
      | some (root1, v1) =>
        match root fuel1 v1 idx2 with
        | none => .error .stuck
        | some (root2, v2) =>
          if root1 = root2 then .ok (.TVar root1, v2)
          else
            match v2[root1]?, v2[root2]? with
            | some b1, some b2 =>
              match unify fuel1 v2 b1 b2 with
              | .ok (unified, v3) =>
                .ok (.TVar root1, (v3.set root1 unified).set root2 (.TVar root1))
              | .error e => .error e
            | _, _ => .error .stuck
  | .TVar idx, t | t, .TVar idx =>
    match fuel with
    | 0 => .error .stuck
    | fuel1 + 1 =>
      match root fuel1 v idx with
      | none => .error .stuck
      | some (r, v1) =>
        match v1[r]? with
        | none => .error .stuck
        | some bound =>
          match unify fuel1 v1 bound t with
          | .ok (unified, v2) => .ok (.TVar r, v2.set r unified)
          | .error e => .error e
  | .BoundAny, t | t, .BoundAny => .ok (t, v)
  | .BoundNum, t => if numRight t then .ok (t, v) else .error (.panicked ty1 ty2)
  | t, .BoundNum => if numLeft t then .ok (t, v) else .error (.panicked ty1 ty2)
  | .BoundInt, t => if intRight t then .ok (t, v) else .error (.panicked ty1 ty2)
  | t, .BoundInt => if isIntTy t then .ok (t, v) else .error (.panicked ty1 ty2)
  | .BoundFlt, t => if fltRight t then .ok (t, v) else .error (.panicked ty1 ty2)
  | t, .BoundFlt => if fltLeft t then .ok (t, v) else .error (.panicked ty1 ty2)
  | _, _ => .error (.panicked ty1 ty2)
termination_by (fuel, sizeOf ty1 + sizeOf ty2)

/-- Element-wise unification of Inst type-argument vectors: the source zips
both iterators and monadically collects, so a length mismatch silently
truncates to the shorter vector. -/
def unifyArgs (fuel : Nat) (v : List Ty) (l1 l2 : List Ty) : Except UErr (List Ty × List Ty) :=
  match l1, l2 with
  | [], _ => .ok ([], v)
  | _, [] => .ok ([], v)
  | t1 :: r1, t2 :: r2 =>
    match unify fuel v t1 t2 with
    | .ok (t, v1) =>
      match unifyArgs fuel v1 r1 r2 with
      | .ok (ts, v2) => .ok (t :: ts, v2)
      | .error e => .error e
    | .error e => .error e
termination_by (fuel, sizeOf l1 + sizeOf l2)

/-- The parameter loop shared by the Func and Tuple arms of unify: zipped
iteration, names compared first.  A name mismatch is the break into the
panic of the calling arm, modelled by the ok-none outcome; recursive
failures propagate as errors. -/
def unifyParams (fuel : Nat) (v : List Ty) (l1 l2 : List (String × Ty)) :
    Except UErr (Option (List (String × Ty) × List Ty)) :=
  match l1, l2 with
  | [], _ => .ok (some ([], v))
  | _, [] => .ok (some ([], v))
  | (n1, t1) :: r1, (n2, t2) :: r2 =>
    if n1 = n2 then
      match unify fuel v t1 t2 with
      | .ok (t, v1) =>
        match unifyParams fuel v1 r1 r2 with
        | .ok (some (ts, v2)) => .ok (some ((n1, t) :: ts, v2))
        | .ok none => .ok none
        | .error e => .error e
      | .error e => .error e
    else .ok none
termination_by (fuel, sizeOf l1 + sizeOf l2)

end

example : unify 1 [] .Bool .Bool = .ok (.Bool, []) := by simp [unify]

example : unify 1 [] .Bool .Float = .error (.panicked .Bool .Float) := by simp [unify]

example : unify 1 [] .Uint8 .BoundNum = .ok (.Uint8, []) := by
  simp [unify, numLeft, isNumericTy]

example :
    unify 5 [Ty.BoundAny, Ty.BoundAny] (.TVar 0) (.TVar 1) =
      .ok (.TVar 0, [Ty.BoundAny, Ty.TVar 0]) := by
  simp [unify, root]

example : unifyArgs 1 [] [] [] = .ok ([], []) := by simp [unifyArgs]

example : unifyParams 1 [] [] [] = .ok (some ([], [])) := by simp [unifyParams]

mutual

/-- TVarCtx::lit_ty from src/src/sema/tctx.rs, lines 181 to 231: resolve a
type expression to its literal type, following type variables to their root
and replacing bound sentinels by default literal types. -/
def litTy (fuel : Nat) (v : List Ty) (t : Ty) : Option (Ty × List Ty) :=
  match t with
  | .Bool => some (.Bool, v)
  | .Uint8 => some (.Uint8, v)
  | .Int8 => some (.Int8, v)
  | .Uint16 => some (.Uint16, v)
  | .Int16 => some (.Int16, v)
  | .Uint32 => some (.Uint32, v)
  | .Int32 => some (.Int32, v)
  | .Uint64 => some (.Uint64, v)
  | .Int64 => some (.Int64, v)
  | .Uintn => some (.Uintn, v)
  | .Intn => some (.Intn, v)
  | .Float => some (.Float, v)
  | .Double => some (.Double, v)
  | .Inst name id targs =>
    match litArgs fuel v targs with
    | some (targs1, v1) => some (.Inst name id targs1, v1)
    | none => none
  | .Ptr isMut ty =>
    match litTy fuel v ty with
    | some (ty1, v1) => some (.Ptr isMut ty1, v1)
    | none => none
  | .Func params ty =>
    match litParams fuel v params with
    | some (params1, v1) =>
      match litTy fuel v1 ty with
      | some (ty1, v2) => some (.Func params1 ty1, v2)
      | none => none
    | none => none
  | .Arr cnt ty =>
    match litTy fuel v ty with
    | some (ty1, v1) => some (.Arr cnt ty1, v1)
    | none => none
  | .Tuple params =>
    match litParams fuel v params with
    | some (params1, v1) => some (.Tuple params1, v1)
    | none => none
  | .TVar idx =>
    match fuel with
    | 0 => none
    | fuel1 + 1 =>
      match root fuel1 v idx with
      | some (r, v1) =>
        match v1[r]? with
        | some bound => litTy fuel1 v1 bound
        | none => none
      | none => none
  | .BoundAny => some (.Tuple [], v)
  | .BoundNum => some (.Int32, v)
  | .BoundInt => some (.Int32, v)
  | .BoundFlt => some (.Float, v)
termination_by (fuel, sizeOf t)

/-- The map over Inst type arguments inside lit_ty, with the context
threaded left to right. -/
def litArgs (fuel : Nat) (v : List Ty) (l : List Ty) : Option (List Ty × List Ty) :=
  match l with
  | [] => some ([], v)
  | t :: r =>
    match litTy fuel v t with
    | some (t1, v1) =>
      match litArgs fuel v1 r with
      | some (ts, v2) => some (t1 :: ts, v2)
      | none => none
    | none => none
termination_by (fuel, sizeOf l)

/-- The map over named parameter lists inside lit_ty (Func and Tuple). -/
def litParams (fuel : Nat) (v : List Ty) (l : List (String × Ty)) :
    Option (List (String × Ty) × List Ty) :=
  match l with
  | [] => some ([], v)
  | (n, t) :: r =>
    match litTy fuel v t with
    | some (t1, v1) =>
      match litParams fuel v1 r with
      | some (ts, v2) => some ((n, t1) :: ts, v2)
      | none => none
    | none => none
termination_by (fuel, sizeOf l)

end

mutual

/-- A type term is ground when it contains no type variable and no bound
sentinel.  These are exactly the literal types the checker hands to unify
once inference has fixed everything. -/
def ground : Ty → Bool
  | .TVar _ => false
  | .BoundAny | .BoundNum | .BoundInt | .BoundFlt => false
  | .Inst _ _ targs => groundArgs targs
  | .Func params ret => groundParams params && ground ret
  | .Ptr _ base => ground base
  | .Arr _ elem => ground elem
  | .Tuple params => groundParams params
  | _ => true

def groundArgs : List Ty → Bool
  | [] => true
  | t :: r => ground t && groundArgs r

def groundParams : List (String × Ty) → Bool
  | [] => true
  | (_, t) :: r => ground t && groundParams r

end

mutual

/-- Characterisation of success of unify on ground-skeleton inputs: the
exact condition under which the source reaches a success arm rather than
the panic, one constructor per structural rule, including the zip
truncation of Inst argument vectors. -/
inductive Compat : Ty → Ty → Prop where
  | bool : Compat .Bool .Bool
  | uint8 : Compat .Uint8 .Uint8
  | int8 : Compat .Int8 .Int8
  | uint16 : Compat .Uint16 .Uint16
  | int16 : Compat .Int16 .Int16
  | uint32 : Compat .Uint32 .Uint32
  | int32 : Compat .Int32 .Int32
  | uint64 : Compat .Uint64 .Uint64
  | int64 : Compat .Int64 .Int64
  | uintn : Compat .Uintn .Uintn
  | intn : Compat .Intn .Intn
  | float : Compat .Float .Float
  | double : Compat .Double .Double
  | inst (name1 name2 : String) (defId : Nat) (targs1 targs2 : List Ty) :
      CompatArgs targs1 targs2 →
      Compat (.Inst name1 defId targs1) (.Inst name2 defId targs2)
  | func (par1 par2 : List (String × Ty)) (ret1 ret2 : Ty) :
      par1.length = par2.length → CompatParams par1 par2 → Compat ret1 ret2 →
      Compat (.Func par1 ret1) (.Func par2 ret2)
  | ptr (isMut : Bool) (base1 base2 : Ty) :
      Compat base1 base2 → Compat (.Ptr isMut base1) (.Ptr isMut base2)
  | arr (count : Nat) (elem1 elem2 : Ty) :
      Compat elem1 elem2 → Compat (.Arr count elem1) (.Arr count elem2)
  | tuple (par1 par2 : List (String × Ty)) :
      par1.length = par2.length → CompatParams par1 par2 →
      Compat (.Tuple par1) (.Tuple par2)

/-- Compat lifted to Inst argument vectors, with the zip truncation: a
mismatch in length beyond the shorter list is accepted, as the source zips
the iterators. -/
inductive CompatArgs : List Ty → List Ty → Prop where
  | nilL (l2 : List Ty) : CompatArgs [] l2
  | nilR (t : Ty) (r : List Ty) : CompatArgs (t :: r) []
  | cons (t1 t2 : Ty) (r1 r2 : List Ty) :
      Compat t1 t2 → CompatArgs r1 r2 → CompatArgs (t1 :: r1) (t2 :: r2)

/-- Compat lifted to named parameter lists: corresponding names must agree
exactly, as in the Func and Tuple arms of unify. -/
inductive CompatParams : List (String × Ty) → List (String × Ty) → Prop where
  | nilL (l2 : List (String × Ty)) : CompatParams [] l2
  | nilR (p : String × Ty) (r : List (String × Ty)) : CompatParams (p :: r) []
  | cons (n : String) (t1 t2 : Ty) (r1 r2 : List (String × Ty)) :
      Compat t1 t2 → CompatParams r1 r2 →
      CompatParams ((n, t1) :: r1) ((n, t2) :: r2)

end

mutual

/-- The value a successful ground run of unify returns: the first argument,
except that Inst argument vectors are truncated to the shorter length by
the zip in the Inst arm. -/
def umerge : Ty → Ty → Ty
  | .Inst name defId targs1, .Inst _ _ targs2 => .Inst name defId (umergeArgs targs1 targs2)
  | .Func par1 ret1, .Func par2 ret2 => .Func (umergeParams par1 par2) (umerge ret1 ret2)
  | .Ptr isMut1 base1, .Ptr _ base2 => .Ptr isMut1 (umerge base1 base2)
  | .Arr siz1 elem1, .Arr _ elem2 => .Arr siz1 (umerge elem1 elem2)
  | .Tuple par1, .Tuple par2 => .Tuple (umergeParams par1 par2)
  | a, _ => a

def umergeArgs : List Ty → List Ty → List Ty
  | [], _ => []
  | _ :: _, [] => []
  | t1 :: r1, t2 :: r2 => umerge t1 t2 :: umergeArgs r1 r2

def umergeParams : List (String × Ty) → List (String × Ty) → List (String × Ty)
  | [], _ => []
  | _ :: _, [] => []
  | (n1, t1) :: r1, (_, t2) :: r2 => (n1, umerge t1 t2) :: umergeParams r1 r2

end

theorem Ty.one_le_sizeOf (a : Ty) : 1 ≤ sizeOf a := by
  cases a <;> simp <;> omega

example : umerge .Bool .Bool = .Bool := by simp [umerge]

example : umergeArgs [] [] = [] := by simp [umergeArgs]

example : umergeParams [] [] = [] := by simp [umergeParams]

example : ground .Bool = true := by simp [ground]

example : groundArgs [] = true := by simp [groundArgs]

example : groundParams [] = true := by simp [groundParams]

example : litTy 1 [] .BoundAny = some (.Tuple [], []) := by simp [litTy]

set_option maxHeartbeats 8000000 in
/-- Characterisation of successful runs of unify on ground inputs:
unification succeeds exactly when Compat holds, returns the umerge of the
two arguments, and leaves the context untouched.  Stated with an explicit
size bound to drive the induction. -/
theorem unify_ground_all (n : Nat) :
    ∀ (fuel : Nat) (v : List Ty),
    (∀ a b, sizeOf a + sizeOf b ≤ n → Compat a b →
      unify fuel v a b = .ok (umerge a b, v)) ∧
    (∀ a b t w, sizeOf a + sizeOf b ≤ n → ground a = true → ground b = true →
      unify fuel v a b = .ok (t, w) → Compat a b ∧ t = umerge a b ∧ w = v) ∧
    (∀ l1 l2, sizeOf l1 + sizeOf l2 ≤ n → CompatArgs l1 l2 →
      unifyArgs fuel v l1 l2 = .ok (umergeArgs l1 l2, v)) ∧
    (∀ l1 l2 ts w, sizeOf l1 + sizeOf l2 ≤ n →
      groundArgs l1 = true → groundArgs l2 = true →
      unifyArgs fuel v l1 l2 = .ok (ts, w) →
      CompatArgs l1 l2 ∧ ts = umergeArgs l1 l2 ∧ w = v) ∧
    (∀ l1 l2, sizeOf l1 + sizeOf l2 ≤ n → CompatParams l1 l2 →
      unifyParams fuel v l1 l2 = .ok (some (umergeParams l1 l2, v))) ∧
    (∀ l1 l2 ps w, sizeOf l1 + sizeOf l2 ≤ n →
      groundParams l1 = true → groundParams l2 = true →
      unifyParams fuel v l1 l2 = .ok (some (ps, w)) →
      CompatParams l1 l2 ∧ ps = umergeParams l1 l2 ∧ w = v) := by
  induction n with
  | zero =>
    intro fuel v
    have hT : ∀ a : Ty, 1 ≤ sizeOf a := Ty.one_le_sizeOf
    have hL : ∀ l : List Ty, 1 ≤ sizeOf l := by
      intro l; cases l <;> simp <;> omega
    have hP : ∀ l : List (String × Ty), 1 ≤ sizeOf l := by
      intro l; cases l <;> simp <;> omega
    refine ⟨fun a b hsz _ => ?_, fun a b t w hsz _ _ _ => ?_,
            fun l1 l2 hsz _ => ?_, fun l1 l2 ts w hsz _ _ _ => ?_,
            fun l1 l2 hsz _ => ?_, fun l1 l2 ps w hsz _ _ _ => ?_⟩ <;>
      first
      | (exfalso; have h1 := hT a; have h2 := hT b; omega)
      | (exfalso; have h1 := hL l1; have h2 := hL l2; omega)
      | (exfalso; have h1 := hP l1; have h2 := hP l2; omega)
  | succ n IH =>
    intro fuel v
    obtain ⟨IHt, IHti, IHa, IHai, IHp, IHpi⟩ := IH fuel v
    refine ⟨?_, ?_, ?_, ?_, ?_, ?_⟩
    · -- forward direction for types
      intro a b hsz hc
      cases hc with
      | bool => simp [unify, umerge]
      | uint8 => simp [unify, umerge]
      | int8 => simp [unify, umerge]
      | uint16 => simp [unify, umerge]
      | int16 => simp [unify, umerge]
      | uint32 => simp [unify, umerge]
      | int32 => simp [unify, umerge]
      | uint64 => simp [unify, umerge]
      | int64 => simp [unify, umerge]
      | uintn => simp [unify, umerge]
      | intn => simp [unify, umerge]
      | float => simp [unify, umerge]
      | double => simp [unify, umerge]
      | inst name1 name2 defId targs1 targs2 hargs =>
        simp only [Ty.Inst.sizeOf_spec] at hsz
        have hAA := IHa targs1 targs2 (by omega) hargs
        simp [unify, hAA, umerge]
      | func par1 par2 ret1 ret2 hl hp hr =>
        simp only [Ty.Func.sizeOf_spec] at hsz
        have hAP := IHp par1 par2 (by omega) hp
        have hAR := IHt ret1 ret2 (by omega) hr
        simp [unify, hl, hAP, hAR, umerge]
      | ptr isMut base1 base2 hb =>
        simp only [Ty.Ptr.sizeOf_spec] at hsz
        have hAB := IHt base1 base2 (by omega) hb
        simp [unify, hAB, umerge]
      | arr count elem1 elem2 he =>
        simp only [Ty.Arr.sizeOf_spec] at hsz
        have hAE := IHt elem1 elem2 (by omega) he
        simp [unify, hAE, umerge]
      | tuple par1 par2 hl hp =>
        simp only [Ty.Tuple.sizeOf_spec] at hsz
        have hAP := IHp par1 par2 (by omega) hp
        simp [unify, hl, hAP, umerge]
    · -- inversion for types
      intro a b t w hsz ha hb hok
      cases a <;> cases b <;>
        first
        | (simp only [ground] at ha; exact Bool.noConfusion ha)
        | (simp only [ground] at hb; exact Bool.noConfusion hb)
        | (simp only [unify] at hok
           exact Except.noConfusion hok)
        | (simp only [unify, Except.ok.injEq, Prod.mk.injEq] at hok
           obtain ⟨h1, h2⟩ := hok
           subst h1
           subst h2
           refine ⟨by constructor, ?_, rfl⟩
           simp only [umerge])
        | skip
      · -- Inst with Inst
        rename_i name1 defId1 targs1 name2 defId2 targs2
        simp only [ground] at ha hb
        simp only [Ty.Inst.sizeOf_spec] at hsz
        simp only [unify] at hok
        split at hok
        · rename_i hd
          subst hd
          split at hok
          · rename_i targs0 v1 heq
            obtain ⟨hca, hts, hw⟩ := IHai targs1 targs2 targs0 v1 (by omega) ha hb heq
            simp only [Except.ok.injEq, Prod.mk.injEq] at hok
            refine ⟨Compat.inst _ _ _ _ _ hca, ?_, ?_⟩
            · rw [← hok.1, hts, umerge]
            · rw [← hok.2, hw]
          · exact Except.noConfusion hok
        · exact Except.noConfusion hok
      · -- Func with Func
        rename_i par1 ret1 par2 ret2
        simp only [ground, Bool.and_eq_true] at ha hb
        simp only [Ty.Func.sizeOf_spec] at hsz
        simp only [unify] at hok
        split at hok
        · rename_i hl
          split at hok
          · rename_i par0 v1 heqp
            obtain ⟨hcp, hps, hw1⟩ :=
              IHpi par1 par2 par0 v1 (by omega) ha.1 hb.1 heqp
            subst hw1
            split at hok
            · rename_i ret0 v2 heqr
              obtain ⟨hcr, hrs, hw2⟩ :=
                IHti ret1 ret2 ret0 v2 (by omega) ha.2 hb.2 heqr
              simp only [Except.ok.injEq, Prod.mk.injEq] at hok
              refine ⟨Compat.func _ _ _ _ hl hcp hcr, ?_, ?_⟩
              · rw [← hok.1, hps, hrs, umerge]
              · rw [← hok.2, hw2]
            · exact Except.noConfusion hok
          · exact Except.noConfusion hok
          · exact Except.noConfusion hok
        · exact Except.noConfusion hok
      · -- Ptr with Ptr
        rename_i isMut1 base1 isMut2 base2
        simp only [ground] at ha hb
        simp only [Ty.Ptr.sizeOf_spec] at hsz
        simp only [unify] at hok
        split at hok
        · rename_i hm
          subst hm
          split at hok
          · rename_i base0 v1 heq
            obtain ⟨hcb, hbs, hw⟩ := IHti base1 base2 base0 v1 (by omega) ha hb heq
            simp only [Except.ok.injEq, Prod.mk.injEq] at hok
            refine ⟨Compat.ptr _ _ _ hcb, ?_, ?_⟩
            · rw [← hok.1, hbs, umerge]
            · rw [← hok.2, hw]
          · exact Except.noConfusion hok
        · exact Except.noConfusion hok
      · -- Arr with Arr
        rename_i siz1 elem1 siz2 elem2
        simp only [ground] at ha hb
        simp only [Ty.Arr.sizeOf_spec] at hsz
        simp only [unify] at hok
        split at hok
        · rename_i hs
          subst hs
          split at hok
          · rename_i elem0 v1 heq
            obtain ⟨hce, hes, hw⟩ := IHti elem1 elem2 elem0 v1 (by omega) ha hb heq
            simp only [Except.ok.injEq, Prod.mk.injEq] at hok
            refine ⟨Compat.arr _ _ _ hce, ?_, ?_⟩
            · rw [← hok.1, hes, umerge]
            · rw [← hok.2, hw]
          · exact Except.noConfusion hok
        · exact Except.noConfusion hok
      · -- Tuple with Tuple
        rename_i par1 par2
        simp only [ground] at ha hb
        simp only [Ty.Tuple.sizeOf_spec] at hsz
        simp only [unify] at hok
        split at hok
        · rename_i hl
          split at hok
          · rename_i par0 v1 heqp
            obtain ⟨hcp, hps, hw⟩ := IHpi par1 par2 par0 v1 (by omega) ha hb heqp
            simp only [Except.ok.injEq, Prod.mk.injEq] at hok
            refine ⟨Compat.tuple _ _ hl hcp, ?_, ?_⟩
            · rw [← hok.1, hps, umerge]
            · rw [← hok.2, hw]
          · exact Except.noConfusion hok
          · exact Except.noConfusion hok
        · exact Except.noConfusion hok
    · -- forward direction for Inst argument vectors
      intro l1 l2 hsz hc
      cases hc with
      | nilL l2 => simp [unifyArgs, umergeArgs]
      | nilR t r => simp [unifyArgs, umergeArgs]
      | cons t1 t2 r1 r2 hct hcr =>
        simp only [List.cons.sizeOf_spec] at hsz
        have hT := IHt t1 t2 (by omega) hct
        have hR := IHa r1 r2 (by omega) hcr
        simp [unifyArgs, hT, hR, umergeArgs]
    · -- inversion for Inst argument vectors
      intro l1 l2 ts w hsz h1 h2 hok
      match l1, l2 with
      | [], l2 =>
        simp only [unifyArgs, Except.ok.injEq, Prod.mk.injEq] at hok
        exact ⟨CompatArgs.nilL l2, by simp [umergeArgs, hok.1.symm], hok.2.symm⟩
      | t1 :: r1, [] =>
        simp only [unifyArgs, Except.ok.injEq, Prod.mk.injEq] at hok
        exact ⟨CompatArgs.nilR t1 r1, by simp [umergeArgs, hok.1.symm], hok.2.symm⟩
      | t1 :: r1, t2 :: r2 =>
        simp only [groundArgs, Bool.and_eq_true] at h1 h2
        simp only [List.cons.sizeOf_spec] at hsz
        simp only [unifyArgs] at hok
        split at hok
        · rename_i t0 v1 heqt
          obtain ⟨hct, hts, hw1⟩ := IHti t1 t2 t0 v1 (by omega) h1.1 h2.1 heqt
          subst hw1
          split at hok
          · rename_i ts0 v2 heqr
            obtain ⟨hcr, hrs, hw2⟩ := IHai r1 r2 ts0 v2 (by omega) h1.2 h2.2 heqr
            simp only [Except.ok.injEq, Prod.mk.injEq] at hok
            refine ⟨CompatArgs.cons _ _ _ _ hct hcr, ?_, ?_⟩
            · rw [← hok.1, hts, hrs, umergeArgs]
            · rw [← hok.2, hw2]
          · exact Except.noConfusion hok
        · exact Except.noConfusion hok
    · -- forward direction for named parameter lists
      intro l1 l2 hsz hc
      cases hc with
      | nilL l2 => simp [unifyParams, umergeParams]
      | nilR p r => simp [unifyParams, umergeParams]
      | cons nm t1 t2 r1 r2 hct hcr =>
        simp only [List.cons.sizeOf_spec, Prod.mk.sizeOf_spec] at hsz
        have hT := IHt t1 t2 (by omega) hct
        have hR := IHp r1 r2 (by omega) hcr
        simp [unifyParams, hT, hR, umergeParams]
    · -- inversion for named parameter lists
      intro l1 l2 ps w hsz h1 h2 hok
      match l1, l2 with
      | [], l2 =>
        simp only [unifyParams, Except.ok.injEq, Option.some.injEq,
          Prod.mk.injEq] at hok
        exact ⟨CompatParams.nilL l2, by simp [umergeParams, hok.1.symm], hok.2.symm⟩
      | p1 :: r1, [] =>
        simp only [unifyParams, Except.ok.injEq, Option.some.injEq,
          Prod.mk.injEq] at hok
        exact ⟨CompatParams.nilR p1 r1, by simp [umergeParams, hok.1.symm], hok.2.symm⟩
      | (n1, t1) :: r1, (n2, t2) :: r2 =>
        simp only [groundParams, Bool.and_eq_true] at h1 h2
        simp only [List.cons.sizeOf_spec, Prod.mk.sizeOf_spec] at hsz
        simp only [unifyParams] at hok
        split at hok
        · rename_i hn
          subst hn
          split at hok
          · rename_i t0 v1 heqt
            obtain ⟨hct, hts, hw1⟩ := IHti t1 t2 t0 v1 (by omega) h1.1 h2.1 heqt
            subst hw1
            split at hok
            · rename_i ps0 v2 heqr
              obtain ⟨hcr, hrs, hw2⟩ := IHpi r1 r2 ps0 v2 (by omega) h1.2 h2.2 heqr
              simp only [Except.ok.injEq, Option.some.injEq, Prod.mk.injEq] at hok
              refine ⟨CompatParams.cons _ _ _ _ _ hct hcr, ?_, ?_⟩
              · rw [← hok.1, hts, hrs, umergeParams]
              · rw [← hok.2, hw2]
            · simp at hok
            · exact Except.noConfusion hok
          · exact Except.noConfusion hok
        · simp at hok

/-- Compat and its list liftings are symmetric. -/
theorem compat_symm_all (n : Nat) :
    (∀ a b, sizeOf a + sizeOf b ≤ n → Compat a b → Compat b a) ∧
    (∀ l1 l2 : List Ty, sizeOf l1 + sizeOf l2 ≤ n → CompatArgs l1 l2 → CompatArgs l2 l1) ∧
    (∀ l1 l2 : List (String × Ty), sizeOf l1 + sizeOf l2 ≤ n →
      CompatParams l1 l2 → CompatParams l2 l1) := by
  induction n with
  | zero =>
    refine ⟨fun a b hsz _ => ?_, fun l1 l2 hsz _ => ?_, fun l1 l2 hsz _ => ?_⟩
    · exfalso; have h1 := Ty.one_le_sizeOf a; have h2 := Ty.one_le_sizeOf b; omega
    · exfalso
      have h1 : 1 ≤ sizeOf l1 := by cases l1 <;> simp <;> omega
      have h2 : 1 ≤ sizeOf l2 := by cases l2 <;> simp <;> omega
      omega
    · exfalso
      have h1 : 1 ≤ sizeOf l1 := by cases l1 <;> simp <;> omega
      have h2 : 1 ≤ sizeOf l2 := by cases l2 <;> simp <;> omega
      omega
  | succ n IH =>
    obtain ⟨IHt, IHa, IHp⟩ := IH
    refine ⟨?_, ?_, ?_⟩
    · intro a b hsz hc
      cases hc with
      | bool => exact .bool
      | uint8 => exact .uint8
      | int8 => exact .int8
      | uint16 => exact .uint16
      | int16 => exact .int16
      | uint32 => exact .uint32
      | int32 => exact .int32
      | uint64 => exact .uint64
      | int64 => exact .int64
      | uintn => exact .uintn
      | intn => exact .intn
      | float => exact .float
      | double => exact .double
      | inst name1 name2 defId targs1 targs2 hargs =>
        simp only [Ty.Inst.sizeOf_spec] at hsz
        exact .inst _ _ _ _ _ (IHa targs1 targs2 (by omega) hargs)
      | func par1 par2 ret1 ret2 hl hp hr =>
        simp only [Ty.Func.sizeOf_spec] at hsz
        exact .func _ _ _ _ hl.symm (IHp par1 par2 (by omega) hp)
          (IHt ret1 ret2 (by omega) hr)
      | ptr isMut base1 base2 hb =>
        simp only [Ty.Ptr.sizeOf_spec] at hsz
        exact .ptr _ _ _ (IHt base1 base2 (by omega) hb)
      | arr count elem1 elem2 he =>
        simp only [Ty.Arr.sizeOf_spec] at hsz
        exact .arr _ _ _ (IHt elem1 elem2 (by omega) he)
      | tuple par1 par2 hl hp =>
        simp only [Ty.Tuple.sizeOf_spec] at hsz
        exact .tuple _ _ hl.symm (IHp par1 par2 (by omega) hp)
    · intro l1 l2 hsz hc
      cases hc with
      | nilL l2 =>
        cases l2 with
        | nil => exact .nilL []
        | cons t r => exact .nilR t r
      | nilR t r => exact .nilL _
      | cons t1 t2 r1 r2 hct hcr =>
        simp only [List.cons.sizeOf_spec] at hsz
        exact .cons _ _ _ _ (IHt t1 t2 (by omega) hct) (IHa r1 r2 (by omega) hcr)
    · intro l1 l2 hsz hc
      cases hc with
      | nilL l2 =>
        cases l2 with
        | nil => exact .nilL []
        | cons p r => exact .nilR p r
      | nilR p r => exact .nilL _
      | cons nm t1 t2 r1 r2 hct hcr =>
        simp only [List.cons.sizeOf_spec, Prod.mk.sizeOf_spec] at hsz
        exact .cons _ _ _ _ _ (IHt t1 t2 (by omega) hct) (IHp r1 r2 (by omega) hcr)

theorem umergeArgs_nil_right (l : List Ty) : umergeArgs l [] = [] := by
  cases l <;> simp [umergeArgs]

theorem umergeParams_nil_right (l : List (String × Ty)) : umergeParams l [] = [] := by
  cases l with
  | nil => simp [umergeParams]
  | cons p r =>
    obtain ⟨n1, t1⟩ := p
    simp [umergeParams]

theorem umergeParams_length (l1 l2 : List (String × Ty)) :
    (umergeParams l1 l2).length = min l1.length l2.length := by
  induction l1 generalizing l2 with
  | nil => simp [umergeParams]
  | cons p r ih =>
    obtain ⟨n1, t1⟩ := p
    cases l2 with
    | nil => simp [umergeParams]
    | cons q r2 =>
      obtain ⟨n2, t2⟩ := q
      simp [umergeParams, ih, Nat.succ_min_succ]

/-- The transitivity package: if a and b are compatible and b and c are
compatible, then both bracketings of the three-way merge are compatible and
merge to the same result. -/
theorem compat_trans_all (n : Nat) :
    (∀ a b c, sizeOf a + sizeOf b + sizeOf c ≤ n → Compat a b → Compat b c →
      Compat (umerge a b) c ∧ Compat a (umerge b c) ∧
        umerge (umerge a b) c = umerge a (umerge b c)) ∧
    (∀ l1 l2 l3 : List Ty, sizeOf l1 + sizeOf l2 + sizeOf l3 ≤ n →
      CompatArgs l1 l2 → CompatArgs l2 l3 →
      CompatArgs (umergeArgs l1 l2) l3 ∧ CompatArgs l1 (umergeArgs l2 l3) ∧
        umergeArgs (umergeArgs l1 l2) l3 = umergeArgs l1 (umergeArgs l2 l3)) ∧
    (∀ l1 l2 l3 : List (String × Ty), sizeOf l1 + sizeOf l2 + sizeOf l3 ≤ n →
      CompatParams l1 l2 → CompatParams l2 l3 →
      CompatParams (umergeParams l1 l2) l3 ∧ CompatParams l1 (umergeParams l2 l3) ∧
        umergeParams (umergeParams l1 l2) l3 = umergeParams l1 (umergeParams l2 l3)) := by
  induction n with
  | zero =>
    refine ⟨fun a b c hsz _ _ => ?_, fun l1 l2 l3 hsz _ _ => ?_,
            fun l1 l2 l3 hsz _ _ => ?_⟩
    · exfalso; have h1 := Ty.one_le_sizeOf a; have h2 := Ty.one_le_sizeOf b; omega
    · exfalso
      have h1 : 1 ≤ sizeOf l1 := by cases l1 <;> simp <;> omega
      have h2 : 1 ≤ sizeOf l2 := by cases l2 <;> simp <;> omega
      omega
    · exfalso
      have h1 : 1 ≤ sizeOf l1 := by cases l1 <;> simp <;> omega
      have h2 : 1 ≤ sizeOf l2 := by cases l2 <;> simp <;> omega
      omega
  | succ n IH =>
    obtain ⟨IHt, IHa, IHp⟩ := IH
    refine ⟨?_, ?_, ?_⟩
    · intro a b c hsz hab hbc
      cases hab with
      | bool => cases hbc; simp only [umerge]; exact ⟨.bool, .bool, trivial⟩
      | uint8 => cases hbc; simp only [umerge]; exact ⟨.uint8, .uint8, trivial⟩
      | int8 => cases hbc; simp only [umerge]; exact ⟨.int8, .int8, trivial⟩
      | uint16 => cases hbc; simp only [umerge]; exact ⟨.uint16, .uint16, trivial⟩
      | int16 => cases hbc; simp only [umerge]; exact ⟨.int16, .int16, trivial⟩
      | uint32 => cases hbc; simp only [umerge]; exact ⟨.uint32, .uint32, trivial⟩
      | int32 => cases hbc; simp only [umerge]; exact ⟨.int32, .int32, trivial⟩
      | uint64 => cases hbc; simp only [umerge]; exact ⟨.uint64, .uint64, trivial⟩
      | int64 => cases hbc; simp only [umerge]; exact ⟨.int64, .int64, trivial⟩
      | uintn => cases hbc; simp only [umerge]; exact ⟨.uintn, .uintn, trivial⟩
      | intn => cases hbc; simp only [umerge]; exact ⟨.intn, .intn, trivial⟩
      | float => cases hbc; simp only [umerge]; exact ⟨.float, .float, trivial⟩
      | double => cases hbc; simp only [umerge]; exact ⟨.double, .double, trivial⟩
      | inst name1 name2 defId targs1 targs2 h12 =>
        cases hbc with
        | inst _ name3 _ _ targs3 h23 =>
          simp only [Ty.Inst.sizeOf_spec] at hsz
          obtain ⟨g1, g2, g3⟩ := IHa targs1 targs2 targs3 (by omega) h12 h23
          simp only [umerge]
          exact ⟨.inst _ _ _ _ _ g1, .inst _ _ _ _ _ g2, by rw [g3]⟩
      | func par1 par2 ret1 ret2 hl12 hp12 hr12 =>
        cases hbc with
        | func _ par3 _ ret3 hl23 hp23 hr23 =>
          simp only [Ty.Func.sizeOf_spec] at hsz
          obtain ⟨g1, g2, g3⟩ := IHp par1 par2 par3 (by omega) hp12 hp23
          obtain ⟨f1, f2, f3⟩ := IHt ret1 ret2 ret3 (by omega) hr12 hr23
          simp only [umerge]
          refine ⟨.func _ _ _ _ ?_ g1 f1, .func _ _ _ _ ?_ g2 f2, by rw [g3, f3]⟩
          · rw [umergeParams_length, hl12, Nat.min_self, hl23]
          · rw [umergeParams_length, ← hl23, Nat.min_self, hl12]
      | ptr isMut base1 base2 h12 =>
        cases hbc with
        | ptr _ _ base3 h23 =>
          simp only [Ty.Ptr.sizeOf_spec] at hsz
          obtain ⟨g1, g2, g3⟩ := IHt base1 base2 base3 (by omega) h12 h23
          simp only [umerge]
          exact ⟨.ptr _ _ _ g1, .ptr _ _ _ g2, by rw [g3]⟩
      | arr count elem1 elem2 h12 =>
        cases hbc with
        | arr _ _ elem3 h23 =>
          simp only [Ty.Arr.sizeOf_spec] at hsz
          obtain ⟨g1, g2, g3⟩ := IHt elem1 elem2 elem3 (by omega) h12 h23
          simp only [umerge]
          exact ⟨.arr _ _ _ g1, .arr _ _ _ g2, by rw [g3]⟩
      | tuple par1 par2 hl12 hp12 =>
        cases hbc with
        | tuple _ par3 hl23 hp23 =>
          simp only [Ty.Tuple.sizeOf_spec] at hsz
          obtain ⟨g1, g2, g3⟩ := IHp par1 par2 par3 (by omega) hp12 hp23
          simp only [umerge]
          refine ⟨.tuple _ _ ?_ g1, .tuple _ _ ?_ g2, by rw [g3]⟩
          · rw [umergeParams_length, hl12, Nat.min_self, hl23]
          · rw [umergeParams_length, ← hl23, Nat.min_self, hl12]
    · intro l1 l2 l3 hsz h12 h23
      cases h12 with
      | nilL l2 =>
        refine ⟨?_, .nilL _, ?_⟩
        · simp only [umergeArgs]; exact .nilL _
        · simp [umergeArgs]
      | nilR t r =>
        cases h23 with
        | nilL _ =>
          refine ⟨?_, ?_, ?_⟩
          · simp only [umergeArgs]; exact .nilL _
          · simp only [umergeArgs]; exact .nilR _ _
          · simp [umergeArgs]
      | cons t1 t2 r1 r2 hc12 hr12 =>
        cases h23 with
        | nilR =>
          refine ⟨?_, ?_, ?_⟩
          · simp only [umergeArgs]; exact .nilR _ _
          · rw [umergeArgs_nil_right]; exact .nilR _ _
          · simp [umergeArgs, umergeArgs_nil_right]
        | cons _ t3 _ r3 hc23 hr23 =>
          simp only [List.cons.sizeOf_spec] at hsz
          obtain ⟨g1, g2, g3⟩ := IHt t1 t2 t3 (by omega) hc12 hc23
          obtain ⟨f1, f2, f3⟩ := IHa r1 r2 r3 (by omega) hr12 hr23
          simp only [umergeArgs]
          exact ⟨.cons _ _ _ _ g1 f1, .cons _ _ _ _ g2 f2, by rw [g3, f3]⟩
    · intro l1 l2 l3 hsz h12 h23
      cases h12 with
      | nilL l2 =>
        refine ⟨?_, .nilL _, ?_⟩
        · simp only [umergeParams]; exact .nilL _
        · simp [umergeParams]
      | nilR p r =>
        cases h23 with
        | nilL _ =>
          refine ⟨?_, ?_, ?_⟩
          · simp only [umergeParams]; exact .nilL _
          · simp only [umergeParams]; exact .nilR _ _
          · simp [umergeParams]
      | cons nm t1 t2 r1 r2 hc12 hr12 =>
        cases h23 with
        | nilR =>
          refine ⟨?_, ?_, ?_⟩
          · simp only [umergeParams]; exact .nilR _ _
          · rw [umergeParams_nil_right]; exact .nilR _ _
          · simp [umergeParams, umergeParams_nil_right]
        | cons _ _ t3 _ r3 hc23 hr23 =>
          simp only [List.cons.sizeOf_spec, Prod.mk.sizeOf_spec] at hsz
          obtain ⟨g1, g2, g3⟩ := IHt t1 t2 t3 (by omega) hc12 hc23
          obtain ⟨f1, f2, f3⟩ := IHp r1 r2 r3 (by omega) hr12 hr23
          simp only [umergeParams]
          exact ⟨.cons _ _ _ _ _ g1 f1, .cons _ _ _ _ _ g2 f2, by rw [g3, f3]⟩


/-- Every litTy result is ground: it contains no type variable and no bound
sentinel.  The induction is lexicographic on fuel and a size bound, since
the TVar arm recurses through a bound stored in the context. -/
theorem litTy_ground_all (fuel n : Nat) (v : List Ty) :
    (∀ t r w, sizeOf t ≤ n → litTy fuel v t = some (r, w) → ground r = true) ∧
    (∀ l rs w, sizeOf l ≤ n → litArgs fuel v l = some (rs, w) → groundArgs rs = true) ∧
    (∀ l rs w, sizeOf l ≤ n → litParams fuel v l = some (rs, w) →
      groundParams rs = true) := by
  refine ⟨?_, ?_, ?_⟩
  · intro t r w hsz hlit
    cases t <;> (try simp only [litTy, Option.some.injEq, Prod.mk.injEq] at hlit)
    case Bool => rw [← hlit.1]; simp [ground]
    case Uint8 => rw [← hlit.1]; simp [ground]
    case Int8 => rw [← hlit.1]; simp [ground]
    case Uint16 => rw [← hlit.1]; simp [ground]
    case Int16 => rw [← hlit.1]; simp [ground]
    case Uint32 => rw [← hlit.1]; simp [ground]
    case Int32 => rw [← hlit.1]; simp [ground]
    case Uint64 => rw [← hlit.1]; simp [ground]
    case Int64 => rw [← hlit.1]; simp [ground]
    case Uintn => rw [← hlit.1]; simp [ground]
    case Intn => rw [← hlit.1]; simp [ground]
    case Float => rw [← hlit.1]; simp [ground]
    case Double => rw [← hlit.1]; simp [ground]
    case BoundAny => rw [← hlit.1]; simp [ground, groundParams]
    case BoundNum => rw [← hlit.1]; simp [ground]
    case BoundInt => rw [← hlit.1]; simp [ground]
    case BoundFlt => rw [← hlit.1]; simp [ground]
    case Inst name id targs =>
      simp only [Ty.Inst.sizeOf_spec] at hsz
      split at hlit
      · rename_i targs1 v1 heq
        simp only [Option.some.injEq, Prod.mk.injEq] at hlit
        rw [← hlit.1, ground]
        exact (litTy_ground_all fuel (sizeOf targs) v).2.1 targs targs1 v1
          (le_refl _) heq
      · exact Option.noConfusion hlit
    case Ptr isMut ty =>
      simp only [Ty.Ptr.sizeOf_spec] at hsz
      split at hlit
      · rename_i ty1 v1 heq
        simp only [Option.some.injEq, Prod.mk.injEq] at hlit
        rw [← hlit.1, ground]
        exact (litTy_ground_all fuel (sizeOf ty) v).1 ty ty1 v1 (le_refl _) heq
      · exact Option.noConfusion hlit
    case Func params ty =>
      simp only [Ty.Func.sizeOf_spec] at hsz
      split at hlit
      · rename_i params1 v1 heqp
        split at hlit
        · rename_i ty1 v2 heqt
          simp only [Option.some.injEq, Prod.mk.injEq] at hlit
          rw [← hlit.1, ground]
          have g1 := (litTy_ground_all fuel (sizeOf params) v).2.2 params params1 v1
            (le_refl _) heqp
          have g2 := (litTy_ground_all fuel (sizeOf ty) v1).1 ty ty1 v2
            (le_refl _) heqt
          simp [g1, g2]
        · exact Option.noConfusion hlit
      · exact Option.noConfusion hlit
    case Arr cnt ty =>
      simp only [Ty.Arr.sizeOf_spec] at hsz
      split at hlit
      · rename_i ty1 v1 heq
        simp only [Option.some.injEq, Prod.mk.injEq] at hlit
        rw [← hlit.1, ground]
        exact (litTy_ground_all fuel (sizeOf ty) v).1 ty ty1 v1 (le_refl _) heq
      · exact Option.noConfusion hlit
    case Tuple params =>
      simp only [Ty.Tuple.sizeOf_spec] at hsz
      split at hlit
      · rename_i params1 v1 heq
        simp only [Option.some.injEq, Prod.mk.injEq] at hlit
        rw [← hlit.1, ground]
        exact (litTy_ground_all fuel (sizeOf params) v).2.2 params params1 v1
          (le_refl _) heq
      · exact Option.noConfusion hlit
    case TVar idx =>
      cases fuel with
      | zero => simp [litTy] at hlit
      | succ fuel1 =>
        simp only [litTy] at hlit
        split at hlit
        · rename_i r1 v1 heq
          split at hlit
          · rename_i bound heqb
            exact (litTy_ground_all fuel1 (sizeOf bound) v1).1 bound r w
              (le_refl _) hlit
          · exact Option.noConfusion hlit
        · exact Option.noConfusion hlit
  · intro l rs w hsz hlit
    match l with
    | [] =>
      simp only [litArgs, Option.some.injEq, Prod.mk.injEq] at hlit
      rw [← hlit.1]; simp [groundArgs]
    | t :: r1 =>
      simp only [List.cons.sizeOf_spec] at hsz
      simp only [litArgs] at hlit
      split at hlit
      · rename_i t1 v1 heqt
        split at hlit
        · rename_i ts v2 heqr
          simp only [Option.some.injEq, Prod.mk.injEq] at hlit
          rw [← hlit.1, groundArgs]
          have g1 := (litTy_ground_all fuel (sizeOf t) v).1 t t1 v1 (le_refl _) heqt
          have g2 := (litTy_ground_all fuel (sizeOf r1) v1).2.1 r1 ts v2
            (le_refl _) heqr
          simp [g1, g2]
        · exact Option.noConfusion hlit
      · exact Option.noConfusion hlit
  · intro l rs w hsz hlit
    match l with
    | [] =>
      simp only [litParams, Option.some.injEq, Prod.mk.injEq] at hlit
      rw [← hlit.1]; simp [groundParams]
    | (nm, t) :: r1 =>
      simp only [List.cons.sizeOf_spec, Prod.mk.sizeOf_spec] at hsz
      simp only [litParams] at hlit
      split at hlit
      · rename_i t1 v1 heqt
        split at hlit
        · rename_i ts v2 heqr
          simp only [Option.some.injEq, Prod.mk.injEq] at hlit
          rw [← hlit.1, groundParams]
          have g1 := (litTy_ground_all fuel (sizeOf t) v).1 t t1 v1 (le_refl _) heqt
          have g2 := (litTy_ground_all fuel (sizeOf r1) v1).2.2 r1 ts v2
            (le_refl _) heqr
          simp [g1, g2]
        · exact Option.noConfusion hlit
      · exact Option.noConfusion hlit
termination_by (fuel, n)
decreasing_by all_goals
  (simp_wf
   try simp only [Ty.Inst.sizeOf_spec, Ty.Func.sizeOf_spec, Ty.Ptr.sizeOf_spec,
     Ty.Arr.sizeOf_spec, Ty.Tuple.sizeOf_spec, List.cons.sizeOf_spec,
     Prod.mk.sizeOf_spec] at *
   first
   | (apply Prod.Lex.left; omega)
   | (apply Prod.Lex.right; omega))

/-- C1: for a pair of types with no matching unification rule, unify does
not return the CannotUnify error the specification describes: the Err
return in tctx.rs is commented out and the function executes the panic
macro instead, aborting the process.  The embedding evaluates unify at the
concrete pair Bool and Float and observes the panic outcome. -/
theorem C1_unify_panics_instead_of_returning_error (fuel : Nat) (v : List Ty) :
    unify fuel v .Bool .Float = .error (.panicked .Bool .Float) := by
  simp [unify]

/-- C3: the parameter-name check in the Func arm of unify.  A parameter
name mismatch breaks into the panic path carrying the two function types,
so unify indeed fails hard rather than unifying structurally while
ignoring names.  No variadic flag exists in the Func constructor consumed
by tctx.rs, so the variadic-equality requirement of the claim has no
counterpart in this code. -/
theorem C3_func_name_mismatch_fails_hard (fuel : Nat) (v : List Ty) (r1 r2 : Ty) :
    unify fuel v (.Func [("x", .Bool)] r1) (.Func [("y", .Bool)] r2) =
      .error (.panicked (.Func [("x", .Bool)] r1) (.Func [("y", .Bool)] r2)) := by
  simp [unify, unifyParams]

/-- C4 counterexample: unification as implemented is neither symmetric as
an equation on results nor transitive in the claimed sense.  With the
context holding two unconstrained type variables, unify(TVar 0, TVar 1)
returns TVar 0 while unify(TVar 1, TVar 0) returns TVar 1; and with
a = Uint8, b = BoundNum, c = Uint16 both premises unify(a,b) = Uint8 and
unify(b,c) = Uint16 succeed, yet unify(Uint8, Uint16) reaches the panic. -/
theorem C4_counterexample :
    unify 1 [] .Uint8 .BoundNum = .ok (.Uint8, []) ∧
    unify 1 [] .BoundNum .Uint16 = .ok (.Uint16, []) ∧
    unify 1 [] .Uint8 .Uint16 = .error (.panicked .Uint8 .Uint16) ∧
    unify 5 [.BoundAny, .BoundAny] (.TVar 0) (.TVar 1) =
      .ok (.TVar 0, [.BoundAny, .TVar 0]) ∧
    unify 5 [.BoundAny, .BoundAny] (.TVar 1) (.TVar 0) =
      .ok (.TVar 1, [.TVar 1, .BoundAny]) := by
  refine ⟨?_, ?_, ?_, ?_, ?_⟩ <;>
    simp [unify, root, numLeft, numRight, isNumericTy]

/-- C4 amended: restricted to ground types (no type variables, no bound
sentinels), unify(a,b) succeeds iff unify(b,a) succeeds; a successful
unify(a,b) returns the merge of its arguments (its first argument, with
Inst argument vectors truncated by the zip) and leaves the context
unchanged; and whenever unify(a,b) = t1 and unify(b,c) = t2 both succeed,
unify(t1,c) and unify(a,t2) both succeed and return the same type, hence
also the same type after lit_ty. -/
theorem C4_ground_symmetry_and_transitivity (fuel : Nat) (v : List Ty) (a b c : Ty)
    (ha : ground a = true) (hb : ground b = true) (hc : ground c = true) :
    ((∃ r, unify fuel v a b = .ok r) ↔ (∃ r, unify fuel v b a = .ok r)) ∧
    (∀ t1 w1, unify fuel v a b = .ok (t1, w1) → t1 = umerge a b ∧ w1 = v) ∧
    (∀ t1 t2 w1 w2, unify fuel v a b = .ok (t1, w1) →
      unify fuel v b c = .ok (t2, w2) →
      ∃ u, unify fuel v t1 c = .ok (u, v) ∧ unify fuel v a t2 = .ok (u, v)) := by
  have fwd : ∀ x y : Ty, Compat x y → unify fuel v x y = .ok (umerge x y, v) :=
    fun x y h => (unify_ground_all (sizeOf x + sizeOf y) fuel v).1 x y (le_refl _) h
  have inv : ∀ x y : Ty, ground x = true → ground y = true →
      ∀ t w, unify fuel v x y = .ok (t, w) → Compat x y ∧ t = umerge x y ∧ w = v :=
    fun x y hx hy t w h =>
      (unify_ground_all (sizeOf x + sizeOf y) fuel v).2.1 x y t w (le_refl _) hx hy h
  refine ⟨?_, ?_, ?_⟩
  · constructor
    · rintro ⟨⟨t, w⟩, h⟩
      obtain ⟨hcab, -, -⟩ := inv a b ha hb t w h
      exact ⟨(umerge b a, v),
        fwd b a ((compat_symm_all (sizeOf a + sizeOf b)).1 a b (le_refl _) hcab)⟩
    · rintro ⟨⟨t, w⟩, h⟩
      obtain ⟨hcba, -, -⟩ := inv b a hb ha t w h
      exact ⟨(umerge a b, v),
        fwd a b ((compat_symm_all (sizeOf b + sizeOf a)).1 b a (le_refl _) hcba)⟩
  · intro t1 w1 h1
    exact (inv a b ha hb t1 w1 h1).2
  · intro t1 t2 w1 w2 h1 h2
    obtain ⟨hcab, ht1, -⟩ := inv a b ha hb t1 w1 h1
    obtain ⟨hcbc, ht2, -⟩ := inv b c hb hc t2 w2 h2
    obtain ⟨g1, g2, g3⟩ :=
      (compat_trans_all (sizeOf a + sizeOf b + sizeOf c)).1 a b c (le_refl _)
        hcab hcbc
    subst ht1
    subst ht2
    exact ⟨umerge (umerge a b) c, fwd (umerge a b) c g1, by rw [g3]; exact fwd a (umerge b c) g2⟩

theorem C4_ground_symmetry_and_transitivity_witness :
    ground Ty.Uint8 = true ∧
    (((∃ r, unify 1 [] Ty.Uint8 Ty.Uint8 = .ok r) ↔
      (∃ r, unify 1 [] Ty.Uint8 Ty.Uint8 = .ok r)) ∧
     (∀ t1 w1, unify 1 [] Ty.Uint8 Ty.Uint8 = .ok (t1, w1) →
       t1 = umerge Ty.Uint8 Ty.Uint8 ∧ w1 = []) ∧
     (∀ t1 t2 w1 w2, unify 1 [] Ty.Uint8 Ty.Uint8 = .ok (t1, w1) →
       unify 1 [] Ty.Uint8 Ty.Uint8 = .ok (t2, w2) →
       ∃ u, unify 1 [] t1 Ty.Uint8 = .ok (u, []) ∧
         unify 1 [] Ty.Uint8 t2 = .ok (u, []))) :=
  ⟨by simp [ground],
   C4_ground_symmetry_and_transitivity 1 [] .Uint8 .Uint8 .Uint8
     (by simp [ground]) (by simp [ground]) (by simp [ground])⟩

/-- C5: lit_ty maps BoundAny to the empty tuple, BoundNum and BoundInt to
Int32, BoundFlt to Float; it resolves a type variable by following it to
its root and resolving the bound stored there; and every result it
produces is ground, containing no type variable and no bound sentinel. -/
theorem C5_lit_ty_resolves_bounds (fuel : Nat) (v : List Ty) :
    litTy fuel v .BoundAny = some (.Tuple [], v) ∧
    litTy fuel v .BoundNum = some (.Int32, v) ∧
    litTy fuel v .BoundInt = some (.Int32, v) ∧
    litTy fuel v .BoundFlt = some (.Float, v) ∧
    (∀ idx r1 v1 bound, root fuel v idx = some (r1, v1) → v1[r1]? = some bound →
      litTy (fuel + 1) v (.TVar idx) = litTy fuel v1 bound) ∧
    (∀ t r w, litTy fuel v t = some (r, w) → ground r = true) := by
  refine ⟨by simp [litTy], by simp [litTy], by simp [litTy], by simp [litTy],
          ?_, ?_⟩
  · intro idx r1 v1 bound hroot hbound
    simp [litTy, hroot, hbound]
  · intro t r w h
    exact (litTy_ground_all fuel (sizeOf t) v).1 t r w (le_refl _) h

theorem C5_lit_ty_resolves_bounds_witness :
    litTy 2 [Ty.BoundNum] (.TVar 0) = some (.Int32, [Ty.BoundNum]) ∧
    ground Ty.Int32 = true :=
  ⟨by simp [litTy, root],
   (C5_lit_ty_resolves_bounds 2 [Ty.BoundNum]).2.2.2.2.2 (.TVar 0) .Int32
     [Ty.BoundNum] (by simp [litTy, root])⟩

/-!
Part 2 models the driver in src/src/main.rs.
-/

/-- Choice of output artifact, from src/src/main.rs. -/
inductive CompileTo where
  | LLVMIr
  | Assembly
  | Object
deriving DecidableEq

/-- The output-artifact selection of main, src/src/main.rs lines 47 to 53:
the llvm-ir flag is consulted first, then assembly, and the native object
is the default.  The two arguments are the occurrence counts clap reports
for the two flags. -/
def chooseCompileTo (llvmIrOccurrences assemblyOccurrences : Nat) : CompileTo :=
  if llvmIrOccurrences > 0 then .LLVMIr
  else if assemblyOccurrences > 0 then .Assembly
  else .Object

/-- The tail of main, src/src/main.rs lines 55 to 63: both arms of the
match over the compile result print a message to standard error and fall
through to uninit, and main returns unit, so the process exit status is 0
on both paths.  The model returns the printed lines and the exit status. -/
def mainEpilogue (result : Except String Unit) : List String × Nat :=
  match result with
  | .ok () => (["ok :)"], 0)
  | .error err => ([err ++ " :("], 0)

/-- C10: when both flags are given the llvm-ir branch wins, assembly is
chosen only when llvm-ir is absent, and the native object default applies
exactly when neither flag is present. -/
theorem C10_llvm_ir_flag_takes_precedence :
    (∀ l a, 0 < l → chooseCompileTo l a = .LLVMIr) ∧
    (∀ a, 0 < a → chooseCompileTo 0 a = .Assembly) ∧
    chooseCompileTo 0 0 = .Object := by
  refine ⟨fun l a hl => ?_, fun a ha0 => ?_, by simp [chooseCompileTo]⟩
  · simp [chooseCompileTo, hl]
  · simp [chooseCompileTo, ha0]

theorem C10_llvm_ir_flag_takes_precedence_witness :
    (0 : Nat) < 1 ∧ chooseCompileTo 1 1 = .LLVMIr ∧
    chooseCompileTo 0 1 = .Assembly ∧ chooseCompileTo 0 0 = .Object :=
  ⟨by decide, C10_llvm_ir_flag_takes_precedence.1 1 1 (by decide),
   C10_llvm_ir_flag_takes_precedence.2.1 1 (by decide),
   C10_llvm_ir_flag_takes_precedence.2.2⟩

/-- C2: the process exit status is 0 no matter whether compilation
succeeded or failed, because both arms of the match in main merely print
and main returns unit.  The claimed nonzero status on error does not
happen. -/
theorem C2_exit_status_zero_even_on_error :
    (∀ e, (mainEpilogue (.error e)).2 = 0) ∧ (mainEpilogue (.ok ())).2 = 0 :=
  ⟨fun _ => rfl, rfl⟩

/-!
Part 3 models union lowering from the two lowering implementations.
-/

/-- Backend types as far as aggregate lowering needs them. -/
inductive LTy where
  | int1 | int8 | int16 | int32 | int64
  | float | double | ptr
  | arrTy (elem : LTy) (count : Nat)
  | structTy (fields : List LTy)

/-- The accumulation loop of LowerCtx::lower_union in
src/mpc/src/sema/lower.rs lines 719 to 733: track the running maximal
alignment together with its current witness (updated only on a strict
increase, so the first maximal-alignment element wins) and the running
maximal size. -/
def lowerUnionScan (sz al : LTy → Nat) :
    List LTy → Nat → Nat → Option LTy → Nat × Nat × Option LTy
  | [], unionAlign, unionSize, maxAlignTy => (unionAlign, unionSize, maxAlignTy)
  | p :: rest, unionAlign, unionSize, maxAlignTy =>
    let (unionAlign1, maxAlignTy1) :=
      if al p > unionAlign then (al p, some p) else (unionAlign, maxAlignTy)
    let unionSize1 := if sz p > unionSize then sz p else unionSize
    lowerUnionScan sz al rest unionAlign1 unionSize1 maxAlignTy1

/-- LowerCtx::lower_union from src/mpc/src/sema/lower.rs lines 713 to 744.
Size and alignment queries against the LLVM target layout are abstracted
as the functions sz and al.  The null l_max_align_type, never replaced
when every alignment is zero, is modelled as none. -/
def lower_union (sz al : LTy → Nat) (l_params : List LTy) : Option (List LTy) :=
  if l_params.length = 0 then some []
  else
    match lowerUnionScan sz al l_params 0 0 none with
    | (_, unionSize, some maxAlignTy) =>
      let paddingSize := unionSize - sz maxAlignTy
      if paddingSize > 0 then
        some [maxAlignTy, LTy.arrTy LTy.int8 paddingSize]
      else
        some [maxAlignTy]
    | (_, _, none) => none

/-- Rust Iterator::max over the mapped sizes, as used in
src/mpc/src/lower/mod.rs lines 178 to 182; among equal maxima the last
element is returned, and an empty iterator yields none. -/
def iterMaxNat : List Nat → Option Nat
  | [] => none
  | x :: rest =>
    match iterMaxNat rest with
    | none => some x
    | some y => if x > y then some x else some y

/-- Rust Iterator::max_by_key on the alignment, src/mpc/src/lower/mod.rs
lines 184 to 188; among equal maxima the last element is returned. -/
def iterMaxByAl (al : LTy → Nat) : List LTy → Option LTy
  | [] => none
  | x :: rest =>
    match iterMaxByAl al rest with
    | none => some x
    | some y => if al x > al y then some x else some y

/-- LowerCtx::lower_union from src/mpc/src/lower/mod.rs lines 172 to 200,
the second, wrapper-based implementation. -/
def lower_union_b (sz al : LTy → Nat) (l_params : List LTy) : Option (List LTy) :=
  if l_params.length = 0 then some []
  else
    match iterMaxNat (l_params.map sz), iterMaxByAl al l_params with
    | some unionSize, some maxAlignTy =>
      let paddingSize := unionSize - sz maxAlignTy
      if paddingSize > 0 then
        some [maxAlignTy, LTy.arrTy LTy.int8 paddingSize]
      else
        some [maxAlignTy]
    | _, _ => none

/-- The union layout exactly as claim C7 words it: the highest-alignment
field followed by an i8 padding array of length max_size minus the size of
that field, with no case distinction on the padding length.  This
definition follows the words of the claim and is compared against the
source embeddings above. -/
def lowerUnionClaimed (sz al : LTy → Nat) (l_params : List LTy) :
    Option (List LTy) :=
  if l_params.length = 0 then some []
  else
    match lowerUnionScan sz al l_params 0 0 none with
    | (_, unionSize, some maxAlignTy) =>
      some [maxAlignTy, LTy.arrTy LTy.int8 (unionSize - sz maxAlignTy)]
    | (_, _, none) => none

/-- A demonstration target layout covering the scalar types and arrays. -/
def szDemo : LTy → Nat
  | .int1 => 1 | .int8 => 1 | .int16 => 2 | .int32 => 4 | .int64 => 8
  | .float => 4 | .double => 8 | .ptr => 8
  | .arrTy e n => n * szDemo e
  | .structTy _ => 0

/-- Demonstration alignments matching szDemo on scalars. -/
def alDemo : LTy → Nat
  | .int1 => 1 | .int8 => 1 | .int16 => 2 | .int32 => 4 | .int64 => 8
  | .float => 4 | .double => 8 | .ptr => 8
  | .arrTy e _ => alDemo e
  | .structTy _ => 1

/-- C7 counterexample: for a single-field union of one Int32 the code
omits the padding array entirely (its length would be zero), while the
claim prescribes the field followed by an i8 padding array of length
max_size minus the field size, that is a zero-length array entry. -/
theorem C7_counterexample :
    lower_union szDemo alDemo [LTy.int32] = some [LTy.int32] ∧
    lowerUnionClaimed szDemo alDemo [LTy.int32] =
      some [LTy.int32, LTy.arrTy LTy.int8 0] ∧
    lower_union szDemo alDemo [LTy.int32] ≠
      lowerUnionClaimed szDemo alDemo [LTy.int32] := by
  refine ⟨?_, ?_, ?_⟩ <;>
    simp [lower_union, lowerUnionClaimed, lowerUnionScan, szDemo, alDemo]

/-- The scan of lower_union computes an upper bound of the sizes that is
attained or equal to the initial accumulator, and an upper bound of the
alignments whose witness is either the initial one or an element of the
list. -/
theorem lowerUnionScan_spec (sz al : LTy → Nat) (l : List LTy) :
    ∀ (ua us : Nat) (m : Option LTy),
    ∃ ua1 us1 m1, lowerUnionScan sz al l ua us m = (ua1, us1, m1) ∧
      ua ≤ ua1 ∧ us ≤ us1 ∧
      (∀ p ∈ l, sz p ≤ us1) ∧ (∀ p ∈ l, al p ≤ ua1) ∧
      (us1 = us ∨ ∃ p ∈ l, sz p = us1) ∧
      ((m1 = m ∧ ua1 = ua) ∨ ∃ p ∈ l, m1 = some p ∧ al p = ua1) := by
  induction l with
  | nil =>
    intro ua us m
    exact ⟨ua, us, m, rfl, le_refl _, le_refl _, by simp, by simp,
      .inl rfl, .inl ⟨rfl, rfl⟩⟩
  | cons p rest ih =>
    intro ua us m
    simp only [lowerUnionScan]
    by_cases h1 : al p > ua <;> by_cases h2 : sz p > us <;>
      simp only [h1, h2, if_pos, if_neg, if_true, if_false, ite_true,
        ite_false, reduceIte]
    · obtain ⟨ua1, us1, m1, heq, hua, hus, hszb, halb, hatt, hwit⟩ :=
        ih (al p) (sz p) (some p)
      refine ⟨ua1, us1, m1, heq, by omega, by omega, ?_, ?_, ?_, ?_⟩
      · intro q hq
        rcases List.mem_cons.mp hq with rfl | hq
        · omega
        · exact hszb q hq
      · intro q hq
        rcases List.mem_cons.mp hq with rfl | hq
        · omega
        · exact halb q hq
      · rcases hatt with rfl | ⟨q, hq, hqe⟩
        · exact .inr ⟨p, List.mem_cons_self _ _, rfl⟩
        · exact .inr ⟨q, List.mem_cons_of_mem _ hq, hqe⟩
      · rcases hwit with ⟨rfl, rfl⟩ | ⟨q, hq, hqm, hqe⟩
        · exact .inr ⟨p, List.mem_cons_self _ _, rfl, rfl⟩
        · exact .inr ⟨q, List.mem_cons_of_mem _ hq, hqm, hqe⟩
    · obtain ⟨ua1, us1, m1, heq, hua, hus, hszb, halb, hatt, hwit⟩ :=
        ih (al p) us (some p)
      refine ⟨ua1, us1, m1, heq, by omega, by omega, ?_, ?_, ?_, ?_⟩
      · intro q hq
        rcases List.mem_cons.mp hq with rfl | hq
        · omega
        · exact hszb q hq
      · intro q hq
        rcases List.mem_cons.mp hq with rfl | hq
        · omega
        · exact halb q hq
      · rcases hatt with rfl | ⟨q, hq, hqe⟩
        · exact .inl rfl
        · exact .inr ⟨q, List.mem_cons_of_mem _ hq, hqe⟩
      · rcases hwit with ⟨rfl, rfl⟩ | ⟨q, hq, hqm, hqe⟩
        · exact .inr ⟨p, List.mem_cons_self _ _, rfl, rfl⟩
        · exact .inr ⟨q, List.mem_cons_of_mem _ hq, hqm, hqe⟩
    · obtain ⟨ua1, us1, m1, heq, hua, hus, hszb, halb, hatt, hwit⟩ :=
        ih ua (sz p) m
      refine ⟨ua1, us1, m1, heq, by omega, by omega, ?_, ?_, ?_, ?_⟩
      · intro q hq
        rcases List.mem_cons.mp hq with rfl | hq
        · omega
        · exact hszb q hq
      · intro q hq
        rcases List.mem_cons.mp hq with rfl | hq
        · omega
        · exact halb q hq
      · rcases hatt with rfl | ⟨q, hq, hqe⟩
        · exact .inr ⟨p, List.mem_cons_self _ _, rfl⟩
        · exact .inr ⟨q, List.mem_cons_of_mem _ hq, hqe⟩
      · rcases hwit with ⟨hm, rfl⟩ | ⟨q, hq, hqm, hqe⟩
        · exact .inl ⟨hm, rfl⟩
        · exact .inr ⟨q, List.mem_cons_of_mem _ hq, hqm, hqe⟩
    · obtain ⟨ua1, us1, m1, heq, hua, hus, hszb, halb, hatt, hwit⟩ :=
        ih ua us m
      refine ⟨ua1, us1, m1, heq, by omega, by omega, ?_, ?_, ?_, ?_⟩
      · intro q hq
        rcases List.mem_cons.mp hq with rfl | hq
        · omega
        · exact hszb q hq
      · intro q hq
        rcases List.mem_cons.mp hq with rfl | hq
        · omega
        · exact halb q hq
      · rcases hatt with rfl | ⟨q, hq, hqe⟩
        · exact .inl rfl
        · exact .inr ⟨q, List.mem_cons_of_mem _ hq, hqe⟩
      · rcases hwit with ⟨hm, rfl⟩ | ⟨q, hq, hqm, hqe⟩
        · exact .inl ⟨hm, rfl⟩
        · exact .inr ⟨q, List.mem_cons_of_mem _ hq, hqm, hqe⟩

/-- Iterator::max characterisation: on a nonempty list it returns an
attained upper bound. -/
theorem iterMaxNat_spec (l : List Nat) (hne : l ≠ []) :
    ∃ s, iterMaxNat l = some s ∧ (∀ x ∈ l, x ≤ s) ∧ ∃ x ∈ l, x = s := by
  induction l with
  | nil => exact absurd rfl hne
  | cons x rest ih =>
    cases rest with
    | nil =>
      exact ⟨x, by simp [iterMaxNat], by simp, x, by simp⟩
    | cons y rest2 =>
      obtain ⟨s, hs, hb, q, hq, hqe⟩ := ih (by simp)
      by_cases h : x > s
      · refine ⟨x, ?_, ?_, x, by simp, rfl⟩
        · rw [iterMaxNat, hs]
          simp [h]
        · intro z hz
          rcases List.mem_cons.mp hz with rfl | hz
          · exact le_refl _
          · have := hb z hz; omega
      · refine ⟨s, ?_, ?_, q, List.mem_cons_of_mem _ hq, hqe⟩
        · rw [iterMaxNat, hs]
          simp [h]
        · intro z hz
          rcases List.mem_cons.mp hz with rfl | hz
          · omega
          · exact hb z hz

/-- Iterator::max_by_key characterisation: on a nonempty list it returns
an element of maximal key. -/
theorem iterMaxByAl_spec (al : LTy → Nat) (l : List LTy) (hne : l ≠ []) :
    ∃ m, iterMaxByAl al l = some m ∧ m ∈ l ∧ ∀ p ∈ l, al p ≤ al m := by
  induction l with
  | nil => exact absurd rfl hne
  | cons x rest ih =>
    cases rest with
    | nil =>
      exact ⟨x, by simp [iterMaxByAl], by simp, by simp⟩
    | cons y rest2 =>
      obtain ⟨m, hm, hmem, hb⟩ := ih (by simp)
      by_cases h : al x > al m
      · refine ⟨x, ?_, by simp, ?_⟩
        · rw [iterMaxByAl, hm]
          simp [h]
        · intro z hz
          rcases List.mem_cons.mp hz with rfl | hz
          · exact le_refl _
          · have := hb z hz; omega
      · refine ⟨m, ?_, List.mem_cons_of_mem _ hmem, ?_⟩
        · rw [iterMaxByAl, hm]
          simp [h]
        · intro z hz
          rcases List.mem_cons.mp hz with rfl | hz
          · omega
          · exact hb z hz

/-- C7 amended: for every non-empty union whose field alignments are
positive, both lowering implementations produce a maximal-alignment field
followed by an i8 padding array of length max_size minus the size of that
field when this length is positive, and no padding entry when it is zero;
every empty union lowers to the empty field sequence. -/
theorem C7_union_layout (sz al : LTy → Nat) (l_params : List LTy)
    (hne : l_params ≠ []) (hal : ∀ p ∈ l_params, 0 < al p) :
    (lower_union sz al [] = some [] ∧ lower_union_b sz al [] = some []) ∧
    (∃ m us, m ∈ l_params ∧ (∀ p ∈ l_params, al p ≤ al m) ∧
      (∀ p ∈ l_params, sz p ≤ us) ∧ (∃ q ∈ l_params, sz q = us) ∧
      lower_union sz al l_params =
        some (if us - sz m > 0 then [m, LTy.arrTy LTy.int8 (us - sz m)]
              else [m])) ∧
    (∃ m us, m ∈ l_params ∧ (∀ p ∈ l_params, al p ≤ al m) ∧
      (∀ p ∈ l_params, sz p ≤ us) ∧ (∃ q ∈ l_params, sz q = us) ∧
      lower_union_b sz al l_params =
        some (if us - sz m > 0 then [m, LTy.arrTy LTy.int8 (us - sz m)]
              else [m])) := by
  obtain ⟨p0, rest0, rfl⟩ := List.exists_cons_of_ne_nil hne
  refine ⟨⟨by simp [lower_union], by simp [lower_union_b]⟩, ?_, ?_⟩
  · obtain ⟨ua1, us1, m1, heq, hua, hus, hszb, halb, hatt, hwit⟩ :=
      lowerUnionScan_spec sz al (p0 :: rest0) 0 0 none
    rcases hwit with ⟨hm, hua0⟩ | ⟨m, hmem, hm1, hale⟩
    · exfalso
      have h0 := hal p0 (List.mem_cons_self _ _)
      have h1 := halb p0 (List.mem_cons_self _ _)
      omega
    · subst hm1
      refine ⟨m, us1, hmem, ?_, hszb, ?_, ?_⟩
      · intro p hp
        have := halb p hp
        omega
      · rcases hatt with rfl | ⟨q, hq, hqe⟩
        · refine ⟨p0, List.mem_cons_self _ _, ?_⟩
          have := hszb p0 (List.mem_cons_self _ _)
          omega
        · exact ⟨q, hq, hqe⟩
      · rw [lower_union, heq]
        by_cases hpad : us1 - sz m > 0 <;> simp [hpad]
  · obtain ⟨s, hs, hsb, q, hq, hqe⟩ :=
      iterMaxNat_spec ((p0 :: rest0).map sz) (by simp)
    obtain ⟨m, hm, hmem, hmb⟩ := iterMaxByAl_spec al (p0 :: rest0) (by simp)
    refine ⟨m, s, hmem, hmb, ?_, ?_, ?_⟩
    · intro p hp
      exact hsb (sz p) (List.mem_map_of_mem sz hp)
    · obtain ⟨q0, hq0, hq0e⟩ := List.mem_map.mp hq
      exact ⟨q0, hq0, hq0e.trans hqe⟩
    · rw [lower_union_b, hs, hm]
      by_cases hpad : s - sz m > 0 <;> simp [hpad]

/-!
Part 4 models constant lowering from src/mpc/src/sema/lower.rs.
-/

/-- Modelled from the spec: the mpc crate under src/mpc ships only its two
lowering passes, so the Ty declaration of its sema module is absent.  The
constructors are those produced by lit_ty and matched by lower_ty in
src/mpc/src/sema/lower.rs lines 754 to 793: the primitive types, the three
nominal references, pointers, functions with a variadic flag, arrays and
tuples; instantiation handles are abstracted as naturals. -/
inductive MTy where
  | Unit
  | Bool | Uint8 | Int8 | Uint16 | Int16 | Uint32 | Int32 | Uint64 | Int64
  | Uintn | Intn | Float | Double
  | StructRef (name : String) (id : Nat)
  | UnionRef (name : String) (id : Nat)
  | EnumRef (name : String) (id : Nat)
  | Ptr (isMut : Bool) (base : MTy)
  | Func (params : List (String × MTy)) (va : Bool) (ret : MTy)
  | Arr (count : Nat) (elem : MTy)
  | Tuple (params : List (String × MTy))

/-- Modelled from the spec: ConstPtr as listed in spec section 2, with the
fields destructured by lower_const_ptr in src/mpc/src/sema/lower.rs lines
109 to 122; each variant carries its type, read back by the ty method at
the gep call site. -/
inductive ConstPtr where
  | Data (ty : MTy) (id : Nat)
  | StrLit (ty : MTy) (val : List Nat)
  | ArrayElement (ty : MTy) (base : ConstPtr) (idx : Nat)
  | StructField (ty : MTy) (base : ConstPtr) (idx : Nat)
  | UnionField (ty : MTy) (base : ConstPtr)

/-- Modelled from the spec: ConstVal as listed in spec section 2, with the
fields destructured by lower_const_val and const_init_ty in
src/mpc/src/sema/lower.rs lines 25 to 106; float payloads are kept as
their bit patterns. -/
inductive ConstVal where
  | FuncPtr (id : Nat)
  | DataPtr (ptr : ConstPtr)
  | BoolLit (val : Bool)
  | IntLit (ty : MTy) (val : Int)
  | FltLit (ty : MTy) (val : Nat)
  | ArrLit (ty : MTy) (vals : List ConstVal)
  | StructLit (ty : MTy) (vals : List ConstVal)
  | UnionLit (ty : MTy) (val : ConstVal)
  | CStrLit (val : List Nat)

/-- The LLVM constant expressions produced by constant lowering, with just
enough structure to read back LLVMTypeOf: globals, string literals and
geps are pointers in the opaque-pointer world, and a struct constant
carries the struct type it was built with. -/
inductive CExpr where
  | globalRef
  | constGep (base : CExpr) (idx : Nat)
  | constBool (val : Bool)
  | constInt (ty : LTy) (val : Int)
  | constFlt (ty : LTy) (val : Nat)
  | constStruct (ty : LTy) (fields : List CExpr)
  | constNull (ty : LTy)

/-- LLVMTypeOf on the modelled constant expressions. -/
def typeOfC : CExpr → LTy
  | .globalRef => .ptr
  | .constGep _ _ => .ptr
  | .constBool _ => .int1
  | .constInt ty _ => ty
  | .constFlt ty _ => ty
  | .constStruct ty _ => ty
  | .constNull ty => ty

/-- lower_anon_struct from src/mpc/src/sema/lower.rs lines 796 to 808: the
memo table is keyed on the exact field list, so the handle it returns is
determined by the fields, namely the literal struct type over them. -/
def lower_anon_struct (fields : List LTy) : LTy := .structTy fields

/-- lower_const_ptr from src/mpc/src/sema/lower.rs lines 109 to 122.
Global and interned string literal handles are abstracted as globalRef. -/
def lower_const_ptr : ConstPtr → CExpr
  | .Data _ _ => .globalRef
  | .StrLit _ _ => .globalRef
  | .ArrayElement _ base idx => .constGep (lower_const_ptr base) idx
  | .StructField _ base idx => .constGep (lower_const_ptr base) idx
  | .UnionField _ base => lower_const_ptr base

mutual
/-- lower_const_val from src/mpc/src/sema/lower.rs lines 25 to 66.  The
stateful lower_ty of the context and the target size query are abstracted
as the parameters lowTy and szOf; both functions of this pair consult the
same context. -/
def lower_const_val (lowTy : MTy → LTy) (szOf : LTy → Nat) : ConstVal → CExpr
  | .FuncPtr _ => .globalRef
  | .DataPtr ptr => lower_const_ptr ptr
  | .BoolLit val => .constBool val
  | .IntLit ty val => .constInt (lowTy ty) val
  | .FltLit ty val => .constFlt (lowTy ty) val
  | .ArrLit _ vals =>
    let lvals := lowerConstVals lowTy szOf vals
    .constStruct (lower_anon_struct (lvals.map typeOfC)) lvals
  | .StructLit _ vals =>
    let lvals := lowerConstVals lowTy szOf vals
    .constStruct (lower_anon_struct (lvals.map typeOfC)) lvals
  | .UnionLit ty val =>
    let lval := lower_const_val lowTy szOf val
    let pad := LTy.arrTy .int8 (szOf (lowTy ty) - szOf (typeOfC lval))
    .constStruct (lower_anon_struct [typeOfC lval, pad]) [lval, .constNull pad]
  | .CStrLit _ => .globalRef
termination_by v => sizeOf v

/-- The element-wise map inside the ArrLit and StructLit arms. -/
def lowerConstVals (lowTy : MTy → LTy) (szOf : LTy → Nat) :
    List ConstVal → List CExpr
  | [] => []
  | v :: rest => lower_const_val lowTy szOf v :: lowerConstVals lowTy szOf rest
termination_by vs => sizeOf vs
end

mutual
/-- const_init_ty from src/mpc/src/sema/lower.rs lines 69 to 106, the pure
predictor of the type of the expression lower_const_val returns. -/
def const_init_ty (lowTy : MTy → LTy) (szOf : LTy → Nat) : ConstVal → LTy
  | .FuncPtr _ => .ptr
  | .DataPtr _ => .ptr
  | .CStrLit _ => .ptr
  | .BoolLit _ => .int1
  | .IntLit ty _ => lowTy ty
  | .FltLit ty _ => lowTy ty
  | .ArrLit _ vals => lower_anon_struct (constInitTys lowTy szOf vals)
  | .StructLit _ vals => lower_anon_struct (constInitTys lowTy szOf vals)
  | .UnionLit ty val =>
    let lValTy := const_init_ty lowTy szOf val
    lower_anon_struct [lValTy, LTy.arrTy .int8 (szOf (lowTy ty) - szOf lValTy)]
termination_by v => sizeOf v

/-- The element-wise map inside the ArrLit and StructLit arms. -/
def constInitTys (lowTy : MTy → LTy) (szOf : LTy → Nat) :
    List ConstVal → List LTy
  | [] => []
  | v :: rest => const_init_ty lowTy szOf v :: constInitTys lowTy szOf rest
termination_by vs => sizeOf vs
end

/-- Every MTy term has positive size. -/
theorem MTy_one_le_sizeOf (t : MTy) : 1 ≤ sizeOf t := by
  cases t <;> simp_arith

/-- Every ConstVal term has positive size. -/
theorem ConstVal_one_le_sizeOf (v : ConstVal) : 1 ≤ sizeOf v := by
  cases v <;> simp_arith

/-- Every list has positive size. -/
theorem List.one_le_sizeOf_list {α : Type} [SizeOf α] (l : List α) :
    1 ≤ sizeOf l := by
  cases l <;> simp_arith

/-- Every lowered constant pointer is pointer-typed. -/
theorem lower_const_ptr_ty (p : ConstPtr) :
    typeOfC (lower_const_ptr p) = .ptr := by
  induction p with
  | Data ty id => rfl
  | StrLit ty val => rfl
  | ArrayElement ty base idx ih => rfl
  | StructField ty base idx ih => rfl
  | UnionField ty base ih =>
    rw [lower_const_ptr]
    exact ih

/-- The predictor agrees with the type of the lowered constant, for single
values and element lists alike. -/
theorem const_init_ty_typeOf (lowTy : MTy → LTy) (szOf : LTy → Nat)
    (n : Nat) :
    (∀ val : ConstVal, sizeOf val ≤ n →
      const_init_ty lowTy szOf val = typeOfC (lower_const_val lowTy szOf val)) ∧
    (∀ vals : List ConstVal, sizeOf vals ≤ n →
      constInitTys lowTy szOf vals =
        (lowerConstVals lowTy szOf vals).map typeOfC) := by
  induction n with
  | zero =>
    constructor
    · intro val h
      cases val <;> simp_arith at h
    · intro vals h
      cases vals <;> simp_arith at h
  | succ n ih =>
    constructor
    · intro val h
      cases val with
      | FuncPtr id => simp [const_init_ty, lower_const_val, typeOfC]
      | DataPtr ptr =>
        simp [const_init_ty, lower_const_val, lower_const_ptr_ty]
      | BoolLit v => simp [const_init_ty, lower_const_val, typeOfC]
      | IntLit ty v => simp [const_init_ty, lower_const_val, typeOfC]
      | FltLit ty v => simp [const_init_ty, lower_const_val, typeOfC]
      | ArrLit ty vals =>
        have hsz : sizeOf vals ≤ n := by
          simp only [ConstVal.ArrLit.sizeOf_spec] at h
          have := MTy_one_le_sizeOf ty
          omega
        simp only [const_init_ty, lower_const_val, typeOfC]
        rw [ih.2 vals hsz]
      | StructLit ty vals =>
        have hsz : sizeOf vals ≤ n := by
          simp only [ConstVal.StructLit.sizeOf_spec] at h
          have := MTy_one_le_sizeOf ty
          omega
        simp only [const_init_ty, lower_const_val, typeOfC]
        rw [ih.2 vals hsz]
      | UnionLit ty val =>
        have hsz : sizeOf val ≤ n := by
          simp only [ConstVal.UnionLit.sizeOf_spec] at h
          have := MTy_one_le_sizeOf ty
          omega
        simp only [const_init_ty, lower_const_val, typeOfC]
        rw [ih.1 val hsz]
        rfl
      | CStrLit v => simp [const_init_ty, lower_const_val, typeOfC]
    · intro vals h
      cases vals with
      | nil => simp [constInitTys, lowerConstVals]
      | cons v rest =>
        have hv : sizeOf v ≤ n := by
          simp only [List.cons.sizeOf_spec] at h
          have := List.one_le_sizeOf_list (α := ConstVal) rest
          omega
        have hrest : sizeOf rest ≤ n := by
          simp only [List.cons.sizeOf_spec] at h
          have := ConstVal_one_le_sizeOf v
          omega
        simp only [constInitTys, lowerConstVals, List.map_cons]
        rw [ih.1 v hv, ih.2 rest hrest]

/-- C9: for every constant value the backend type predicted by the pure
const_init_ty equals LLVMTypeOf of the constant expression produced by
lower_const_val, so the Data global shell sized from the predictor in pass
one receives an initializer of exactly its own type in pass two. -/
theorem C9_const_init_ty_predicts_lowered_type (lowTy : MTy → LTy)
    (szOf : LTy → Nat) (val : ConstVal) :
    const_init_ty lowTy szOf val = typeOfC (lower_const_val lowTy szOf val) :=
  (const_init_ty_typeOf lowTy szOf (sizeOf val)).1 val (le_refl _)

/-!
Part 5 models the SSA builder fragment shared by the two lowering
implementations: basic blocks, the instructions emitted by lower_bool and
the Match arm of lower_rvalue, and the builder state threaded through
LowerCtx (src/mpc/src/sema/lower.rs lines 925 to 942 and the equivalent
wrappers of src/mpc/src/lower/mod.rs).
-/

/-- LLVM values as far as the modelled lowering needs them: virtual
registers, boolean and integer constants, addresses of lvalue storage,
undef and zeroinitializer. -/
inductive MVal where
  | reg (n : Nat)
  | boolC (b : Bool)
  | intC (n : Nat)
  | slotAddr (n : Nat)
  | undef
  | zeroinit
deriving DecidableEq

/-- The instructions emitted by the modelled fragment. -/
inductive MInstr where
  | load (dst : Nat) (addr : MVal)
  | gep (dst : Nat) (base : MVal) (idx : Nat)
  | br (dest : Nat)
  | condbr (cond : MVal) (dest1 dest2 : Nat)
  | switch (scrut : MVal) (cases : List (MVal × Nat)) (default : Nat)
  | phi (dst : Nat) (incoming : List (MVal × Nat))

/-- The builder state: the function body as a list of blocks indexed by
their ids, the block the builder is positioned at, the next fresh virtual
register, and the bindings vector of LowerCtx. -/
structure MState where
  blocks : List (List MInstr)
  cur : Nat
  nextReg : Nat
  bindings : List MVal

/-- new_block: LLVMAppendBasicBlock returns a fresh empty block at the end
of the function. -/
def newBlock (s : MState) : Nat × MState :=
  (s.blocks.length, { s with blocks := s.blocks ++ [[]] })

/-- enter_block: LLVMPositionBuilderAtEnd. -/
def enterBlock (s : MState) (b : Nat) : MState := { s with cur := b }

/-- A fresh virtual register for an instruction result. -/
def freshReg (s : MState) : Nat × MState :=
  (s.nextReg, { s with nextReg := s.nextReg + 1 })

/-- Append an instruction at the end of the given block. -/
def emitInstrAt (s : MState) (b : Nat) (i : MInstr) : MState :=
  { s with blocks := s.blocks.set b (s.blocks.getD b [] ++ [i]) }

/-- Append an instruction at the end of the block the builder is
positioned at. -/
def emitInstr (s : MState) (i : MInstr) : MState := emitInstrAt s s.cur i

@[simp] theorem newBlock_fst (s : MState) : (newBlock s).1 = s.blocks.length := rfl

@[simp] theorem newBlock_snd_blocks (s : MState) :
    (newBlock s).2.blocks = s.blocks ++ [[]] := rfl

@[simp] theorem newBlock_snd_cur (s : MState) : (newBlock s).2.cur = s.cur := rfl

@[simp] theorem newBlock_snd_nextReg (s : MState) :
    (newBlock s).2.nextReg = s.nextReg := rfl

@[simp] theorem enterBlock_blocks (s : MState) (b : Nat) :
    (enterBlock s b).blocks = s.blocks := rfl

@[simp] theorem enterBlock_cur (s : MState) (b : Nat) :
    (enterBlock s b).cur = b := rfl

@[simp] theorem enterBlock_nextReg (s : MState) (b : Nat) :
    (enterBlock s b).nextReg = s.nextReg := rfl

@[simp] theorem freshReg_fst (s : MState) : (freshReg s).1 = s.nextReg := rfl

@[simp] theorem freshReg_snd_blocks (s : MState) :
    (freshReg s).2.blocks = s.blocks := rfl

@[simp] theorem freshReg_snd_cur (s : MState) : (freshReg s).2.cur = s.cur := rfl

@[simp] theorem freshReg_snd_nextReg (s : MState) :
    (freshReg s).2.nextReg = s.nextReg + 1 := rfl

@[simp] theorem emitInstrAt_cur (s : MState) (b : Nat) (i : MInstr) :
    (emitInstrAt s b i).cur = s.cur := rfl

@[simp] theorem emitInstrAt_nextReg (s : MState) (b : Nat) (i : MInstr) :
    (emitInstrAt s b i).nextReg = s.nextReg := rfl

@[simp] theorem emitInstrAt_length (s : MState) (b : Nat) (i : MInstr) :
    (emitInstrAt s b i).blocks.length = s.blocks.length := by
  simp [emitInstrAt]

/-- Emitting into one block leaves the other blocks unchanged. -/
theorem emitInstrAt_get_ne (s : MState) (b : Nat) (i : MInstr) (id : Nat)
    (h : id ≠ b) : (emitInstrAt s b i).blocks.get? id = s.blocks.get? id :=
  List.get?_set_ne _ _ (fun hh => h hh.symm)

/-- A list lookup determines the getD default read. -/
theorem getD_of_get? {α : Type} (l : List α) (n : Nat) (x d : α)
    (h : l.get? n = some x) : l.getD n d = x := by
  induction l generalizing n with
  | nil => simp at h
  | cons a t ih =>
    cases n with
    | zero => simp at h; simp [List.getD, h]
    | succ m =>
      simp only [List.get?] at h
      simp only [List.getD_cons_succ]
      exact ih m h

/-- Emitting appends the instruction at the end of the block. -/
theorem emitInstrAt_get_eq (s : MState) (b : Nat) (i : MInstr)
    (cont : List MInstr) (h : s.blocks.get? b = some cont) :
    (emitInstrAt s b i).blocks.get? b = some (cont ++ [i]) := by
  have hlt : b < s.blocks.length := by
    by_contra hge
    rw [List.get?_eq_none.mpr (by omega)] at h
    exact Option.noConfusion h
  simp only [emitInstrAt]
  rw [getD_of_get? _ _ _ _ h]
  exact List.get?_set_eq_of_lt _ hlt

/-- The boolean expression fragment consumed by lower_bool: the LNot, LAnd
and LOr connectives it dispatches on, plus the leaves its default arm
hands to lower_rvalue, modelled as boolean constants and boolean loads
from storage slots. -/
inductive BoolRV where
  | lit (b : Bool)
  | load (slot : Nat)
  | lnot (arg : BoolRV)
  | land (lhs rhs : BoolRV)
  | lor (lhs rhs : BoolRV)

/-- lower_bool from src/mpc/src/sema/lower.rs lines 513 to 535; the
lower_bool of src/mpc/src/lower/mod.rs lines 818 to 840 performs the very
same block and branch construction, so one definition embeds both.  The
default arm lowers the leaf with lower_rvalue and emits a conditional
branch on the result. -/
def lowerBool : BoolRV → MState → Nat → Nat → MState
  | .lnot arg, s, next1, next2 => lowerBool arg s next2 next1
  | .land lhs rhs, s, next1, next2 =>
    let mid := (newBlock s).1
    let s1 := (newBlock s).2
    let s2 := lowerBool lhs s1 mid next2
    lowerBool rhs (enterBlock s2 mid) next1 next2
  | .lor lhs rhs, s, next1, next2 =>
    let mid := (newBlock s).1
    let s1 := (newBlock s).2
    let s2 := lowerBool lhs s1 next1 mid
    lowerBool rhs (enterBlock s2 mid) next1 next2
  | .lit b, s, next1, next2 =>
    emitInstr s (.condbr (MVal.boolC b) next1 next2)
  | .load slot, s, next1, next2 =>
    let r := (freshReg s).1
    let s2 := emitInstr (freshReg s).2 (.load r (MVal.slotAddr slot))
    emitInstr s2 (.condbr (MVal.reg r) next1 next2)

/-- The boolean value of an expression of the fragment, reading leaf slots
from the environment. -/
def denote (env : Nat → Bool) : BoolRV → Bool
  | .lit b => b
  | .load slot => env slot
  | .lnot arg => !(denote env arg)
  | .land lhs rhs => denote env lhs && denote env rhs
  | .lor lhs rhs => denote env lhs || denote env rhs

/-- Register file update. -/
def updReg (regs : Nat → Bool) (dst : Nat) (b : Bool) : Nat → Bool :=
  fun n => if n = dst then b else regs n

/-- The boolean carried by a value, given the register file. -/
def evalVal (regs : Nat → Bool) : MVal → Bool
  | .reg n => regs n
  | .boolC b => b
  | _ => false

/-- The boolean loaded from an address, given the slot environment. -/
def loadVal (env : Nat → Bool) : MVal → Bool
  | .slotAddr n => env n
  | _ => false

/-- Executing the instruction list of one block: loads update the register
file, and the block transfers control at its first branch. -/
inductive StepsTo (env : Nat → Bool) :
    List MInstr → (Nat → Bool) → Nat → (Nat → Bool) → Prop where
  | br {d : Nat} {rest : List MInstr} {regs : Nat → Bool} :
      StepsTo env (MInstr.br d :: rest) regs d regs
  | condbr {v : MVal} {d1 d2 : Nat} {rest : List MInstr} {regs : Nat → Bool} :
      StepsTo env (MInstr.condbr v d1 d2 :: rest) regs
        (if evalVal regs v then d1 else d2) regs
  | load {dst : Nat} {a : MVal} {rest : List MInstr} {regs : Nat → Bool}
      {d : Nat} {regs1 : Nat → Bool} :
      StepsTo env rest (updReg regs dst (loadVal env a)) d regs1 →
      StepsTo env (MInstr.load dst a :: rest) regs d regs1

/-- Control flow through the function body: from a block and register
file, execution reaches a target block with a final register file, the
trace listing the blocks whose code was executed on the way (the target
itself is not executed). -/
inductive Reaches (B : List (List MInstr)) (env : Nat → Bool) :
    Nat → (Nat → Bool) → Nat → (Nat → Bool) → List Nat → Prop where
  | refl {b : Nat} {regs : Nat → Bool} : Reaches B env b regs b regs []
  | step {b : Nat} {regs : Nat → Bool} {instrs : List MInstr} {d : Nat}
      {regs1 : Nat → Bool} {t : Nat} {regs2 : Nat → Bool} {tr : List Nat} :
      B.get? b = some instrs →
      StepsTo env instrs regs d regs1 →
      Reaches B env d regs1 t regs2 tr →
      Reaches B env b regs t regs2 (b :: tr)

/-- Reaches composes transitively, concatenating the traces. -/
theorem reaches_trans {B : List (List MInstr)} {env : Nat → Bool}
    {b : Nat} {regs : Nat → Bool} {t : Nat} {regs1 : Nat → Bool}
    {tr1 : List Nat} {u : Nat} {regs2 : Nat → Bool} {tr2 : List Nat}
    (h1 : Reaches B env b regs t regs1 tr1)
    (h2 : Reaches B env t regs1 u regs2 tr2) :
    Reaches B env b regs u regs2 (tr1 ++ tr2) := by
  induction h1 with
  | refl => simpa using h2
  | step hget hstep _ ih => exact Reaches.step hget hstep (ih h2)

/-- lower_bool only grows the function and writes only to the block the
builder was positioned at and to blocks it creates. -/
theorem lowerBool_shape (e : BoolRV) :
    ∀ (s : MState) (n1 n2 : Nat),
    s.blocks.length ≤ (lowerBool e s n1 n2).blocks.length ∧
    ∀ id, id < s.blocks.length → id ≠ s.cur →
      (lowerBool e s n1 n2).blocks.get? id = s.blocks.get? id := by
  induction e with
  | lit b =>
    intro s n1 n2
    refine ⟨by simp [lowerBool, emitInstr], ?_⟩
    intro id hlt hne
    simp only [lowerBool, emitInstr]
    exact emitInstrAt_get_ne _ _ _ _ hne
  | load slot =>
    intro s n1 n2
    refine ⟨by simp [lowerBool, emitInstr], ?_⟩
    intro id hlt hne
    simp only [lowerBool, emitInstr]
    rw [emitInstrAt_get_ne _ _ _ _ (by simpa using hne)]
    exact emitInstrAt_get_ne _ _ _ _ (by simpa using hne)
  | lnot arg ih =>
    intro s n1 n2
    exact ih s n2 n1
  | land lhs rhs ihl ihr =>
    intro s n1 n2
    simp only [lowerBool]
    obtain ⟨hm2, hf2⟩ := ihl (newBlock s).2 (newBlock s).1 n2
    obtain ⟨hm3, hf3⟩ :=
      ihr (enterBlock (lowerBool lhs (newBlock s).2 (newBlock s).1 n2)
        (newBlock s).1) n1 n2
    simp only [newBlock_fst, newBlock_snd_blocks, newBlock_snd_cur,
      enterBlock_blocks, enterBlock_cur, List.length_append,
      List.length_cons, List.length_nil] at hm2 hf2 hm3 hf3 ⊢
    refine ⟨by omega, ?_⟩
    intro id hlt hne
    rw [hf3 id (by omega) (by omega)]
    rw [hf2 id (by omega) hne]
    exact List.get?_append (by omega)
  | lor lhs rhs ihl ihr =>
    intro s n1 n2
    simp only [lowerBool]
    obtain ⟨hm2, hf2⟩ := ihl (newBlock s).2 n1 (newBlock s).1
    obtain ⟨hm3, hf3⟩ :=
      ihr (enterBlock (lowerBool lhs (newBlock s).2 n1 (newBlock s).1)
        (newBlock s).1) n1 n2
    simp only [newBlock_fst, newBlock_snd_blocks, newBlock_snd_cur,
      enterBlock_blocks, enterBlock_cur, List.length_append,
      List.length_cons, List.length_nil] at hm2 hf2 hm3 hf3 ⊢
    refine ⟨by omega, ?_⟩
    intro id hlt hne
    rw [hf3 id (by omega) (by omega)]
    rw [hf2 id (by omega) hne]
    exact List.get?_append (by omega)

/-- Running the code lower_bool emits: from the entry block, control
reaches next1 when the expression denotes true and next2 when it denotes
false, and the blocks executed on the way are the entry block and blocks
the lowering created.  B is any final function body that agrees with the
lowering result on those blocks. -/
theorem lowerBool_run (e : BoolRV) :
    ∀ (s : MState) (n1 n2 : Nat) (env regs : Nat → Bool)
      (B : List (List MInstr)),
    s.cur < s.blocks.length →
    s.blocks.get? s.cur = some [] →
    (∀ id, id = s.cur ∨ (s.blocks.length ≤ id ∧
        id < (lowerBool e s n1 n2).blocks.length) →
      B.get? id = (lowerBool e s n1 n2).blocks.get? id) →
    ∃ regs1 trace,
      Reaches B env s.cur regs (if denote env e then n1 else n2) regs1 trace ∧
      ∀ x ∈ trace, x = s.cur ∨ (s.blocks.length ≤ x ∧
        x < (lowerBool e s n1 n2).blocks.length) := by
  induction e with
  | lit b =>
    intro s n1 n2 env regs B hcur hopen hB
    refine ⟨regs, [s.cur], ?_, ?_⟩
    · have hget : B.get? s.cur =
          some [MInstr.condbr (MVal.boolC b) n1 n2] := by
        rw [hB s.cur (Or.inl rfl)]
        simp only [lowerBool, emitInstr, emitInstrAt_cur]
        simpa using emitInstrAt_get_eq s s.cur
          (MInstr.condbr (MVal.boolC b) n1 n2) [] hopen
      have heq : (if denote env (BoolRV.lit b) then n1 else n2) =
          (if evalVal regs (MVal.boolC b) then n1 else n2) := rfl
      rw [heq]
      exact Reaches.step hget StepsTo.condbr Reaches.refl
    · intro x hx
      simp only [List.mem_singleton] at hx
      exact Or.inl hx
  | load slot =>
    intro s n1 n2 env regs B hcur hopen hB
    refine ⟨updReg regs s.nextReg (env slot), [s.cur], ?_, ?_⟩
    · have h1 : (emitInstrAt (freshReg s).2 s.cur
          (MInstr.load s.nextReg (MVal.slotAddr slot))).blocks.get? s.cur =
          some ([] ++ [MInstr.load s.nextReg (MVal.slotAddr slot)]) :=
        emitInstrAt_get_eq _ _ _ [] hopen
      have h2 := emitInstrAt_get_eq (emitInstrAt (freshReg s).2 s.cur
          (MInstr.load s.nextReg (MVal.slotAddr slot))) s.cur
          (MInstr.condbr (MVal.reg s.nextReg) n1 n2) _ h1
      have hget : B.get? s.cur =
          some [MInstr.load s.nextReg (MVal.slotAddr slot),
            MInstr.condbr (MVal.reg s.nextReg) n1 n2] := by
        rw [hB s.cur (Or.inl rfl)]
        simp only [lowerBool, emitInstr, emitInstrAt_cur, freshReg_fst,
          freshReg_snd_cur]
        simpa using h2
      have heq : (if denote env (BoolRV.load slot) then n1 else n2) =
          (if evalVal (updReg regs s.nextReg (loadVal env (MVal.slotAddr slot)))
              (MVal.reg s.nextReg) then n1 else n2) := by
        simp [evalVal, updReg, loadVal, denote]
      rw [heq]
      exact Reaches.step hget (StepsTo.load StepsTo.condbr) Reaches.refl
    · intro x hx
      simp only [List.mem_singleton] at hx
      exact Or.inl hx
  | lnot arg ih =>
    intro s n1 n2 env regs B hcur hopen hB
    simp only [lowerBool] at hB ⊢
    obtain ⟨regs1, tr, hre, hb⟩ := ih s n2 n1 env regs B hcur hopen hB
    refine ⟨regs1, tr, ?_, hb⟩
    cases hd : denote env arg
    · rw [hd] at hre
      simp only [Bool.false_eq_true, if_false] at hre
      have hden : denote env (BoolRV.lnot arg) = true := by
        simp [denote, hd]
      rw [hden, if_pos rfl]
      exact hre
    · rw [hd] at hre
      simp only [if_true] at hre
      have hden : denote env (BoolRV.lnot arg) = false := by
        simp [denote, hd]
      rw [hden]
      simp only [Bool.false_eq_true, if_false]
      exact hre
  | land lhs rhs ihl ihr =>
    intro s n1 n2 env regs B hcur hopen hB
    simp only [lowerBool, newBlock_fst] at hB ⊢
    obtain ⟨hm2, hf2⟩ := lowerBool_shape lhs (newBlock s).2 s.blocks.length n2
    obtain ⟨hm3, hf3⟩ := lowerBool_shape rhs (enterBlock (lowerBool lhs (newBlock s).2 s.blocks.length n2) s.blocks.length) n1 n2
    simp only [newBlock_snd_blocks, newBlock_snd_cur, enterBlock_blocks,
      enterBlock_cur, List.length_append, List.length_cons,
      List.length_nil] at hm2 hf2 hm3 hf3
    have hcurA : ((newBlock s).2).cur < ((newBlock s).2).blocks.length := by
      simp only [newBlock_snd_blocks, newBlock_snd_cur, List.length_append,
        List.length_cons, List.length_nil]
      omega
    have hopenA : ((newBlock s).2).blocks.get? ((newBlock s).2).cur =
        some [] := by
      simp only [newBlock_snd_blocks, newBlock_snd_cur]
      rw [List.get?_append hcur]
      exact hopen
    have hBA : ∀ id, id = ((newBlock s).2).cur ∨
        (((newBlock s).2).blocks.length ≤ id ∧
          id < (lowerBool lhs (newBlock s).2 s.blocks.length n2).blocks.length) →
        B.get? id = (lowerBool lhs (newBlock s).2 s.blocks.length n2).blocks.get? id := by
      intro id hid
      simp only [newBlock_snd_blocks, newBlock_snd_cur, List.length_append,
        List.length_cons, List.length_nil] at hid
      have hrange : id = s.cur ∨ (s.blocks.length ≤ id ∧
          id < (lowerBool rhs (enterBlock (lowerBool lhs (newBlock s).2 s.blocks.length n2) s.blocks.length) n1 n2).blocks.length) := by
        rcases hid with rfl | ⟨h1, h2⟩
        · exact Or.inl rfl
        · exact Or.inr ⟨by omega, by omega⟩
      rw [hB id hrange]
      exact hf3 id (by rcases hid with rfl | ⟨h1, h2⟩ <;> omega)
        (by rcases hid with rfl | ⟨h1, h2⟩ <;> omega)
    obtain ⟨regs1, tr1, hre1, hb1⟩ :=
      ihl (newBlock s).2 s.blocks.length n2 env regs B hcurA hopenA hBA
    simp only [newBlock_snd_blocks, newBlock_snd_cur, List.length_append,
      List.length_cons, List.length_nil] at hre1 hb1
    cases hd : denote env lhs
    · rw [hd] at hre1
      simp only [Bool.false_eq_true, if_false] at hre1
      refine ⟨regs1, tr1, ?_, ?_⟩
      · have hden : denote env (BoolRV.land lhs rhs) = false := by
          simp [denote, hd]
        rw [hden]
        simp only [Bool.false_eq_true, if_false]
        exact hre1
      · intro x hx
        rcases hb1 x hx with rfl | ⟨h1, h2⟩
        · exact Or.inl rfl
        · exact Or.inr ⟨by omega, by omega⟩
    · rw [hd] at hre1
      simp only [if_true] at hre1
      have hcur3 : (enterBlock (lowerBool lhs (newBlock s).2 s.blocks.length n2) s.blocks.length).cur < (enterBlock (lowerBool lhs (newBlock s).2 s.blocks.length n2) s.blocks.length).blocks.length := by
        simp only [enterBlock_cur, enterBlock_blocks]
        omega
      have hopen3 : (enterBlock (lowerBool lhs (newBlock s).2 s.blocks.length n2) s.blocks.length).blocks.get? (enterBlock (lowerBool lhs (newBlock s).2 s.blocks.length n2) s.blocks.length).cur = some [] := by
        simp only [enterBlock_cur, enterBlock_blocks]
        rw [hf2 s.blocks.length (by omega) (by omega)]
        exact List.get?_concat_length _ _
      have hB3 : ∀ id, id = (enterBlock (lowerBool lhs (newBlock s).2 s.blocks.length n2) s.blocks.length).cur ∨ ((enterBlock (lowerBool lhs (newBlock s).2 s.blocks.length n2) s.blocks.length).blocks.length ≤ id ∧
          id < (lowerBool rhs (enterBlock (lowerBool lhs (newBlock s).2 s.blocks.length n2) s.blocks.length) n1 n2).blocks.length) →
          B.get? id = (lowerBool rhs (enterBlock (lowerBool lhs (newBlock s).2 s.blocks.length n2) s.blocks.length) n1 n2).blocks.get? id := by
        intro id hid
        simp only [enterBlock_cur, enterBlock_blocks] at hid
        apply hB
        rcases hid with rfl | ⟨h1, h2⟩
        · exact Or.inr ⟨le_refl _, by omega⟩
        · exact Or.inr ⟨by omega, h2⟩
      obtain ⟨regs2, tr2, hre2, hb2⟩ :=
        ihr (enterBlock (lowerBool lhs (newBlock s).2 s.blocks.length n2) s.blocks.length) n1 n2 env regs1 B hcur3 hopen3 hB3
      simp only [enterBlock_cur, enterBlock_blocks] at hre2 hb2
      refine ⟨regs2, tr1 ++ tr2, ?_, ?_⟩
      · have hden : denote env (BoolRV.land lhs rhs) = denote env rhs := by
          simp [denote, hd]
        rw [hden]
        exact reaches_trans hre1 hre2
      · intro x hx
        rcases List.mem_append.mp hx with hx1 | hx2
        · rcases hb1 x hx1 with rfl | ⟨h1, h2⟩
          · exact Or.inl rfl
          · exact Or.inr ⟨by omega, by omega⟩
        · rcases hb2 x hx2 with rfl | ⟨h1, h2⟩
          · exact Or.inr ⟨by omega, by omega⟩
          · exact Or.inr ⟨by omega, h2⟩
  | lor lhs rhs ihl ihr =>
    intro s n1 n2 env regs B hcur hopen hB
    simp only [lowerBool, newBlock_fst] at hB ⊢
    obtain ⟨hm2, hf2⟩ := lowerBool_shape lhs (newBlock s).2 n1 s.blocks.length
    obtain ⟨hm3, hf3⟩ := lowerBool_shape rhs (enterBlock (lowerBool lhs (newBlock s).2 n1 s.blocks.length) s.blocks.length) n1 n2
    simp only [newBlock_snd_blocks, newBlock_snd_cur, enterBlock_blocks,
      enterBlock_cur, List.length_append, List.length_cons,
      List.length_nil] at hm2 hf2 hm3 hf3
    have hcurA : ((newBlock s).2).cur < ((newBlock s).2).blocks.length := by
      simp only [newBlock_snd_blocks, newBlock_snd_cur, List.length_append,
        List.length_cons, List.length_nil]
      omega
    have hopenA : ((newBlock s).2).blocks.get? ((newBlock s).2).cur =
        some [] := by
      simp only [newBlock_snd_blocks, newBlock_snd_cur]
      rw [List.get?_append hcur]
      exact hopen
    have hBA : ∀ id, id = ((newBlock s).2).cur ∨
        (((newBlock s).2).blocks.length ≤ id ∧
          id < (lowerBool lhs (newBlock s).2 n1 s.blocks.length).blocks.length) →
        B.get? id = (lowerBool lhs (newBlock s).2 n1 s.blocks.length).blocks.get? id := by
      intro id hid
      simp only [newBlock_snd_blocks, newBlock_snd_cur, List.length_append,
        List.length_cons, List.length_nil] at hid
      have hrange : id = s.cur ∨ (s.blocks.length ≤ id ∧
          id < (lowerBool rhs (enterBlock (lowerBool lhs (newBlock s).2 n1 s.blocks.length) s.blocks.length) n1 n2).blocks.length) := by
        rcases hid with rfl | ⟨h1, h2⟩
        · exact Or.inl rfl
        · exact Or.inr ⟨by omega, by omega⟩
      rw [hB id hrange]
      exact hf3 id (by rcases hid with rfl | ⟨h1, h2⟩ <;> omega)
        (by rcases hid with rfl | ⟨h1, h2⟩ <;> omega)
    obtain ⟨regs1, tr1, hre1, hb1⟩ :=
      ihl (newBlock s).2 n1 s.blocks.length env regs B hcurA hopenA hBA
    simp only [newBlock_snd_blocks, newBlock_snd_cur, List.length_append,
      List.length_cons, List.length_nil] at hre1 hb1
    cases hd : denote env lhs
    · rw [hd] at hre1
      simp only [Bool.false_eq_true, if_false] at hre1
      have hcur3 : (enterBlock (lowerBool lhs (newBlock s).2 n1 s.blocks.length) s.blocks.length).cur < (enterBlock (lowerBool lhs (newBlock s).2 n1 s.blocks.length) s.blocks.length).blocks.length := by
        simp only [enterBlock_cur, enterBlock_blocks]
        omega
      have hopen3 : (enterBlock (lowerBool lhs (newBlock s).2 n1 s.blocks.length) s.blocks.length).blocks.get? (enterBlock (lowerBool lhs (newBlock s).2 n1 s.blocks.length) s.blocks.length).cur = some [] := by
        simp only [enterBlock_cur, enterBlock_blocks]
        rw [hf2 s.blocks.length (by omega) (by omega)]
        exact List.get?_concat_length _ _
      have hB3 : ∀ id, id = (enterBlock (lowerBool lhs (newBlock s).2 n1 s.blocks.length) s.blocks.length).cur ∨ ((enterBlock (lowerBool lhs (newBlock s).2 n1 s.blocks.length) s.blocks.length).blocks.length ≤ id ∧
          id < (lowerBool rhs (enterBlock (lowerBool lhs (newBlock s).2 n1 s.blocks.length) s.blocks.length) n1 n2).blocks.length) →
          B.get? id = (lowerBool rhs (enterBlock (lowerBool lhs (newBlock s).2 n1 s.blocks.length) s.blocks.length) n1 n2).blocks.get? id := by
        intro id hid
        simp only [enterBlock_cur, enterBlock_blocks] at hid
        apply hB
        rcases hid with rfl | ⟨h1, h2⟩
        · exact Or.inr ⟨le_refl _, by omega⟩
        · exact Or.inr ⟨by omega, h2⟩
      obtain ⟨regs2, tr2, hre2, hb2⟩ :=
        ihr (enterBlock (lowerBool lhs (newBlock s).2 n1 s.blocks.length) s.blocks.length) n1 n2 env regs1 B hcur3 hopen3 hB3
      simp only [enterBlock_cur, enterBlock_blocks] at hre2 hb2
      refine ⟨regs2, tr1 ++ tr2, ?_, ?_⟩
      · have hden : denote env (BoolRV.lor lhs rhs) = denote env rhs := by
          simp [denote, hd]
        rw [hden]
        exact reaches_trans hre1 hre2
      · intro x hx
        rcases List.mem_append.mp hx with hx1 | hx2
        · rcases hb1 x hx1 with rfl | ⟨h1, h2⟩
          · exact Or.inl rfl
          · exact Or.inr ⟨by omega, by omega⟩
        · rcases hb2 x hx2 with rfl | ⟨h1, h2⟩
          · exact Or.inr ⟨by omega, by omega⟩
          · exact Or.inr ⟨by omega, h2⟩
    · rw [hd] at hre1
      simp only [if_true] at hre1
      refine ⟨regs1, tr1, ?_, ?_⟩
      · have hden : denote env (BoolRV.lor lhs rhs) = true := by
          simp [denote, hd]
        rw [hden, if_pos rfl]
        exact hre1
      · intro x hx
        rcases hb1 x hx with rfl | ⟨h1, h2⟩
        · exact Or.inl rfl
        · exact Or.inr ⟨by omega, by omega⟩

/-- C8: for every lowered LAnd the emitted IR never evaluates the right
operand when the left denotes false: both lower_bool implementations place
the right operand in the mid block reachable only from the left-true edge,
so when the left operand is false execution from the entry block reaches
the false target next2 with a trace that avoids the mid block and every
block created while lowering the right operand. -/
theorem C8_land_short_circuit (lhs rhs : BoolRV) (s : MState) (n1 n2 : Nat)
    (env regs : Nat → Bool) (B : List (List MInstr))
    (hcur : s.cur < s.blocks.length)
    (hopen : s.blocks.get? s.cur = some [])
    (hB : ∀ id, id = s.cur ∨ (s.blocks.length ≤ id ∧
        id < (lowerBool (BoolRV.land lhs rhs) s n1 n2).blocks.length) →
      B.get? id = (lowerBool (BoolRV.land lhs rhs) s n1 n2).blocks.get? id)
    (hfalse : denote env lhs = false) :
    ∃ regs1 trace,
      Reaches B env s.cur regs n2 regs1 trace ∧
      ∀ x ∈ trace, x ≠ s.blocks.length ∧
        (x = s.cur ∨ (s.blocks.length + 1 ≤ x ∧
          x < (lowerBool lhs (newBlock s).2 s.blocks.length n2).blocks.length)) := by
  simp only [lowerBool, newBlock_fst] at hB
  obtain ⟨hm2, hf2⟩ := lowerBool_shape lhs (newBlock s).2 s.blocks.length n2
  obtain ⟨hm3, hf3⟩ := lowerBool_shape rhs (enterBlock (lowerBool lhs (newBlock s).2 s.blocks.length n2) s.blocks.length) n1 n2
  simp only [newBlock_snd_blocks, newBlock_snd_cur, enterBlock_blocks,
    enterBlock_cur, List.length_append, List.length_cons,
    List.length_nil] at hm2 hf2 hm3 hf3
  have hcurA : ((newBlock s).2).cur < ((newBlock s).2).blocks.length := by
    simp only [newBlock_snd_blocks, newBlock_snd_cur, List.length_append,
      List.length_cons, List.length_nil]
    omega
  have hopenA : ((newBlock s).2).blocks.get? ((newBlock s).2).cur =
      some [] := by
    simp only [newBlock_snd_blocks, newBlock_snd_cur]
    rw [List.get?_append hcur]
    exact hopen
  have hBA : ∀ id, id = ((newBlock s).2).cur ∨
      (((newBlock s).2).blocks.length ≤ id ∧
        id < (lowerBool lhs (newBlock s).2 s.blocks.length n2).blocks.length) →
      B.get? id = (lowerBool lhs (newBlock s).2 s.blocks.length n2).blocks.get? id := by
    intro id hid
    simp only [newBlock_snd_blocks, newBlock_snd_cur, List.length_append,
      List.length_cons, List.length_nil] at hid
    have hrange : id = s.cur ∨ (s.blocks.length ≤ id ∧
        id < (lowerBool rhs (enterBlock (lowerBool lhs (newBlock s).2 s.blocks.length n2) s.blocks.length) n1 n2).blocks.length) := by
      rcases hid with rfl | ⟨h1, h2⟩
      · exact Or.inl rfl
      · exact Or.inr ⟨by omega, by omega⟩
    rw [hB id hrange]
    exact hf3 id (by rcases hid with rfl | ⟨h1, h2⟩ <;> omega)
      (by rcases hid with rfl | ⟨h1, h2⟩ <;> omega)
  obtain ⟨regs1, tr1, hre1, hb1⟩ :=
    lowerBool_run lhs (newBlock s).2 s.blocks.length n2 env regs B
      hcurA hopenA hBA
  simp only [newBlock_snd_blocks, newBlock_snd_cur, List.length_append,
    List.length_cons, List.length_nil] at hre1 hb1
  rw [hfalse] at hre1
  simp only [Bool.false_eq_true, if_false] at hre1
  refine ⟨regs1, tr1, hre1, ?_⟩
  intro x hx
  rcases hb1 x hx with rfl | ⟨h1, h2⟩
  · exact ⟨by omega, Or.inl rfl⟩
  · exact ⟨by omega, Or.inr ⟨h1, h2⟩⟩

theorem C8_land_short_circuit_witness :
    ∃ regs1 trace,
      Reaches (lowerBool (BoolRV.land (BoolRV.lit false) (BoolRV.load 0))
          ⟨[[]], 0, 0, []⟩ 5 9).blocks (fun _ => false) 0 (fun _ => false)
        9 regs1 trace ∧
      ∀ x ∈ trace, x ≠ 1 ∧ (x = 0 ∨ (2 ≤ x ∧
        x < (lowerBool (BoolRV.lit false)
          (newBlock (⟨[[]], 0, 0, []⟩ : MState)).2 1 9).blocks.length)) :=
  C8_land_short_circuit (BoolRV.lit false) (BoolRV.load 0)
    ⟨[[]], 0, 0, []⟩ 5 9 (fun _ => false) (fun _ => false) _
    (by decide) rfl (fun id h => rfl) rfl

/-- Push a match binding register, as ctx.bindings.push does. -/
def pushBinding (s : MState) (v : MVal) : MState :=
  { s with bindings := s.bindings ++ [v] }

@[simp] theorem pushBinding_blocks (s : MState) (v : MVal) :
    (pushBinding s v).blocks = s.blocks := rfl

@[simp] theorem pushBinding_cur (s : MState) (v : MVal) :
    (pushBinding s v).cur = s.cur := rfl

@[simp] theorem pushBinding_nextReg (s : MState) (v : MVal) :
    (pushBinding s v).nextReg = s.nextReg := rfl

/-- The fragment of rvalues appearing as match arm bodies in the model:
the unit value, which lower_rvalue lowers to a null handle so the arm
yields nothing, and integer literals, lowered to constants. -/
inductive ARV where
  | unit
  | intLit (n : Nat)

/-- Whether lower_rvalue returns a value for the arm body. -/
def yields : ARV → Bool
  | .unit => false
  | .intLit _ => true

/-- lower_rvalue on the modelled arm bodies: build_void is a null handle,
build_int a constant. -/
def lowerARV : ARV → MState → Option MVal × MState
  | .unit, s => (none, s)
  | .intLit n, s => (some (MVal.intC n), s)

/-- The shared body of one match case: the optional binding emits a gep on
the scrutinee address and pushes it, then the arm rvalue is lowered
(src/mpc/src/sema/lower.rs lines 475 to 481, identical in
src/mpc/src/lower/mod.rs lines 779 to 785). -/
def lowerCaseBody (l_addr : MVal) (c : Option Unit × ARV) (s2 : MState) :
    Option MVal × MState :=
  match c.1 with
  | some _ =>
    lowerARV c.2 (pushBinding
      (emitInstr (freshReg s2).2 (.gep (freshReg s2).1 l_addr 1))
      (MVal.reg (freshReg s2).1))
  | none => lowerARV c.2 s2

/-- The case loop of the Match arm in src/mpc/src/sema/lower.rs lines 466
to 486: create the case block, register its switch case under the running
index, lower the body in it, record the value and the insertion block for
the phi when the body yielded one, and close the block with a branch to
the end block.  Returns the switch case pairs, the phi incoming pairs and
the final state. -/
def lowerCasesA (l_addr : MVal) (end_block : Nat) :
    List (Option Unit × ARV) → Nat → MState →
      List (MVal × Nat) × List (MVal × Nat) × MState
  | [], _, s => ([], [], s)
  | c :: rest, idx, s =>
    let case_block := (newBlock s).1
    let s2 := enterBlock (newBlock s).2 case_block
    let res := lowerCaseBody l_addr c s2
    let phiHere : List (MVal × Nat) :=
      match res.1 with
      | some v => [(v, res.2.cur)]
      | none => []
    let s5 := emitInstr res.2 (.br end_block)
    let restRes := lowerCasesA l_addr end_block rest (idx + 1) s5
    ((MVal.intC idx, case_block) :: restRes.1,
      phiHere ++ restRes.2.1, restRes.2.2)

/-- The Match arm of lower_rvalue in src/mpc/src/sema/lower.rs lines 448
to 509.  The scrutinee lvalue is modelled as storage slot addrSlot; the
switch is emitted into the block that was current after the tag load,
carrying the cases the loop registered with LLVMAddCase and defaulting to
the end block; when any arm yielded a value a phi merges them with an
extra undef incoming on the switch block. -/
def lowerMatchA (addrSlot : Nat) (cases : List (Option Unit × ARV))
    (s : MState) : Option MVal × MState :=
  let end_block := (newBlock s).1
  let s1 := (newBlock s).2
  let l_addr := MVal.slotAddr addrSlot
  let l_tag := (freshReg s1).1
  let s2 := emitInstr (freshReg s1).2 (.load l_tag l_addr)
  let start_block := s2.cur
  let res := lowerCasesA l_addr end_block cases 0 s2
  let s5 := emitInstrAt res.2.2 start_block
    (.switch (MVal.reg l_tag) res.1 end_block)
  let s6 := enterBlock s5 end_block
  if res.2.1.length > 0 then
    let l_phi := (freshReg s6).1
    let s7 := emitInstr (freshReg s6).2
      (.phi l_phi (res.2.1 ++ [(MVal.undef, start_block)]))
    (some (MVal.reg l_phi), s7)
  else
    (none, s6)

/-- The case loop of the Match arm in src/mpc/src/lower/mod.rs lines 772
to 790: unlike the first implementation it records the case entry block,
not the insertion block after lowering, for arms that yielded a value, and
keeps values and blocks in two parallel vectors. -/
def lowerCasesB (l_addr : MVal) (end_block : Nat) :
    List (Option Unit × ARV) → MState → List MVal × List Nat × MState
  | [], s => ([], [], s)
  | c :: rest, s =>
    let block := (newBlock s).1
    let s2 := enterBlock (newBlock s).2 block
    let res := lowerCaseBody l_addr c s2
    let valsHere : List MVal :=
      match res.1 with
      | some v => [v]
      | none => []
    let blocksHere : List Nat :=
      match res.1 with
      | some _ => [block]
      | none => []
    let s5 := emitInstr res.2 (.br end_block)
    let restRes := lowerCasesB l_addr end_block rest s5
    (valsHere ++ restRes.1, blocksHere ++ restRes.2.1, restRes.2.2)

/-- The tag_to_block vector of src/mpc/src/lower/mod.rs lines 795 to 797:
index i of 0..n is paired with blocks[i], panicking (none) when the
blocks vector is too short because some arm yielded no value. -/
def tagToBlocks (blocks : List Nat) : Nat → Nat → Option (List (MVal × Nat))
  | _, 0 => some []
  | i, k + 1 =>
    match blocks.get? i, tagToBlocks blocks (i + 1) k with
    | some b, some rest => some ((MVal.intC i, b) :: rest)
    | _, _ => none

/-- The Match arm of LowerCtx::lower_rvalue in src/mpc/src/lower/mod.rs
lines 766 to 814: case bodies are lowered first, the switch is then built
back in the start block, and when any arm yielded a value the phi merges
the parallel vals and blocks vectors after pushing a zeroed constant for
the switch-default edge, not an undef. -/
def lowerMatchB (addrSlot : Nat) (cases : List (Option Unit × ARV))
    (s : MState) : Option (Option MVal × MState) :=
  let start_block := s.cur
  let l_addr := MVal.slotAddr addrSlot
  let end_block := (newBlock s).1
  let res := lowerCasesB l_addr end_block cases (newBlock s).2
  let s3 := enterBlock res.2.2 start_block
  let l_tag := (freshReg s3).1
  let s5 := emitInstr (freshReg s3).2 (.load l_tag l_addr)
  match tagToBlocks res.2.1 0 cases.length with
  | none => none
  | some pairs =>
    let s6 := emitInstr s5 (.switch (MVal.reg l_tag) pairs end_block)
    let s7 := enterBlock s6 end_block
    if res.1.length > 0 then
      let l_phi := (freshReg s7).1
      let s8 := emitInstr (freshReg s7).2
        (.phi l_phi ((res.1 ++ [MVal.zeroinit]).zip (res.2.1 ++ [start_block])))
      some (some (MVal.reg l_phi), s8)
    else
      some (none, s7)

/-- C6 counterexample: on a one-armed match whose arm yields the constant
7, the first implementation merges with an undef incoming on the
switch-default edge as claimed, but the second implementation uses a
zeroed constant there instead of undef. -/
theorem C6_counterexample :
    (lowerMatchA 0 [(none, ARV.intLit 7)] ⟨[[]], 0, 0, []⟩).1 =
      some (MVal.reg 1) ∧
    (lowerMatchA 0 [(none, ARV.intLit 7)] ⟨[[]], 0, 0, []⟩).2.blocks.get? 1 =
      some [MInstr.phi 1 [(MVal.intC 7, 2), (MVal.undef, 0)]] ∧
    (∃ sB, lowerMatchB 0 [(none, ARV.intLit 7)] ⟨[[]], 0, 0, []⟩ =
      some (some (MVal.reg 1), sB) ∧
      sB.blocks.get? 1 =
        some [MInstr.phi 1 [(MVal.intC 7, 2), (MVal.zeroinit, 0)]]) ∧
    MVal.undef ≠ MVal.zeroinit := by
  refine ⟨rfl, rfl, ⟨_, rfl, rfl⟩, by decide⟩

/-- One case body only writes the block the builder is in, appending to
its contents; whether it yields a value is exactly whether the arm rvalue
yields one. -/
theorem lowerCaseBody_spec (l_addr : MVal) (c : Option Unit × ARV)
    (s2 : MState) :
    (lowerCaseBody l_addr c s2).2.cur = s2.cur ∧
    (lowerCaseBody l_addr c s2).2.blocks.length = s2.blocks.length ∧
    (∀ id, id ≠ s2.cur →
      (lowerCaseBody l_addr c s2).2.blocks.get? id = s2.blocks.get? id) ∧
    (∀ cont, s2.blocks.get? s2.cur = some cont →
      ∃ body, (lowerCaseBody l_addr c s2).2.blocks.get? s2.cur =
        some (cont ++ body)) ∧
    (lowerCaseBody l_addr c s2).1.isSome = yields c.2 := by
  rcases c with ⟨bopt, arv⟩
  cases bopt with
  | none =>
    cases arv with
    | unit =>
      exact ⟨rfl, rfl, fun id h => rfl,
        fun cont hc => ⟨[], by
          simp only [lowerCaseBody, lowerARV, List.append_nil]
          exact hc⟩, rfl⟩
    | intLit n =>
      exact ⟨rfl, rfl, fun id h => rfl,
        fun cont hc => ⟨[], by
          simp only [lowerCaseBody, lowerARV, List.append_nil]
          exact hc⟩, rfl⟩
  | some u =>
    cases arv with
    | unit =>
      refine ⟨rfl, ?_, ?_, ?_, rfl⟩
      · simp [lowerCaseBody, lowerARV, emitInstr]
      · intro id h
        simp only [lowerCaseBody, lowerARV, pushBinding_blocks, emitInstr,
          freshReg_snd_cur, freshReg_snd_blocks]
        exact emitInstrAt_get_ne _ _ _ _ h
      · intro cont hc
        refine ⟨[MInstr.gep s2.nextReg l_addr 1], ?_⟩
        simp only [lowerCaseBody, lowerARV, pushBinding_blocks, emitInstr,
          freshReg_snd_cur, freshReg_fst]
        exact emitInstrAt_get_eq _ _ _ cont hc
    | intLit n =>
      refine ⟨rfl, ?_, ?_, ?_, rfl⟩
      · simp [lowerCaseBody, lowerARV, emitInstr]
      · intro id h
        simp only [lowerCaseBody, lowerARV, pushBinding_blocks, emitInstr,
          freshReg_snd_cur, freshReg_snd_blocks]
        exact emitInstrAt_get_ne _ _ _ _ h
      · intro cont hc
        refine ⟨[MInstr.gep s2.nextReg l_addr 1], ?_⟩
        simp only [lowerCaseBody, lowerARV, pushBinding_blocks, emitInstr,
          freshReg_snd_cur, freshReg_fst]
        exact emitInstrAt_get_eq _ _ _ cont hc

/-- The sema case loop appends one block per case, each ending in a branch
to the end block; phi incoming pairs point at case blocks, and some arm
yielding a value makes the pair list nonempty. -/
theorem lowerCasesA_spec (l_addr : MVal) (end_block : Nat) :
    ∀ (cs : List (Option Unit × ARV)) (idx : Nat) (s : MState),
    (lowerCasesA l_addr end_block cs idx s).2.2.blocks.length =
      s.blocks.length + cs.length ∧
    (∀ id, id < s.blocks.length →
      (lowerCasesA l_addr end_block cs idx s).2.2.blocks.get? id =
        s.blocks.get? id) ∧
    (∀ i, i < cs.length → ∃ body,
      (lowerCasesA l_addr end_block cs idx s).2.2.blocks.get?
        (s.blocks.length + i) = some (body ++ [MInstr.br end_block])) ∧
    (∀ p ∈ (lowerCasesA l_addr end_block cs idx s).2.1,
      s.blocks.length ≤ p.2 ∧ p.2 < s.blocks.length + cs.length) ∧
    ((∃ c ∈ cs, yields c.2 = true) →
      (lowerCasesA l_addr end_block cs idx s).2.1 ≠ []) := by
  intro cs
  induction cs with
  | nil =>
    intro idx s
    refine ⟨by simp [lowerCasesA], fun id h => by simp [lowerCasesA],
      fun i hi => absurd hi (by simp), fun p hp => ?_, fun hex => ?_⟩
    · simp [lowerCasesA] at hp
    · obtain ⟨c, hc, _⟩ := hex
      simp at hc
  | cons c rest ih =>
    intro idx s
    simp only [lowerCasesA, newBlock_fst, emitInstr]
    obtain ⟨hcb_cur, hcb_len, hcb_ne, hcb_app, hcb_some⟩ :=
      lowerCaseBody_spec l_addr c (enterBlock (newBlock s).2 s.blocks.length)
    simp only [enterBlock_cur, enterBlock_blocks, newBlock_snd_blocks,
      List.length_append, List.length_cons, List.length_nil]
      at hcb_cur hcb_len hcb_ne hcb_app
    rw [hcb_cur]
    obtain ⟨h1, h2, h3, h4, h5⟩ := ih (idx + 1) (emitInstrAt (lowerCaseBody l_addr c (enterBlock (newBlock s).2 s.blocks.length)).2 s.blocks.length (MInstr.br end_block))
    have hS5len : (emitInstrAt (lowerCaseBody l_addr c (enterBlock (newBlock s).2 s.blocks.length)).2 s.blocks.length (MInstr.br end_block)).blocks.length = s.blocks.length + 1 := by
      rw [emitInstrAt_length]
      exact hcb_len
    have hS5ne : ∀ id, id < s.blocks.length →
        (emitInstrAt (lowerCaseBody l_addr c (enterBlock (newBlock s).2 s.blocks.length)).2 s.blocks.length (MInstr.br end_block)).blocks.get? id = s.blocks.get? id := by
      intro id hid
      rw [emitInstrAt_get_ne _ _ _ _ (by omega)]
      rw [hcb_ne id (by omega)]
      exact List.get?_append hid
    have hS5case : ∃ body, (emitInstrAt (lowerCaseBody l_addr c (enterBlock (newBlock s).2 s.blocks.length)).2 s.blocks.length (MInstr.br end_block)).blocks.get? s.blocks.length =
        some (body ++ [MInstr.br end_block]) := by
      obtain ⟨body, hbody⟩ := hcb_app [] (List.get?_concat_length _ _)
      refine ⟨body, ?_⟩
      have := emitInstrAt_get_eq _ _ (MInstr.br end_block) _ hbody
      simpa using this
    refine ⟨?_, ?_, ?_, ?_, ?_⟩
    · simp only [List.length_cons]
      rw [h1, hS5len]
      omega
    · intro id hid
      rw [h2 id (by omega)]
      exact hS5ne id hid
    · intro i hi
      cases i with
      | zero =>
        obtain ⟨body, hb⟩ := hS5case
        refine ⟨body, ?_⟩
        simp only [Nat.add_zero]
        rw [h2 s.blocks.length (by omega)]
        exact hb
      | succ j =>
        obtain ⟨body, hb⟩ := h3 j (by simp only [List.length_cons] at hi; omega)
        refine ⟨body, ?_⟩
        have heq : s.blocks.length + (j + 1) = (emitInstrAt (lowerCaseBody l_addr c (enterBlock (newBlock s).2 s.blocks.length)).2 s.blocks.length (MInstr.br end_block)).blocks.length + j := by
          rw [hS5len]
          omega
        rw [heq]
        exact hb
    · intro p hp
      rcases List.mem_append.mp hp with hp1 | hp2
      · cases hres : (lowerCaseBody l_addr c (enterBlock (newBlock s).2 s.blocks.length)).1 with
        | none =>
          rw [hres] at hp1
          simp at hp1
        | some v =>
          rw [hres] at hp1
          simp only [List.mem_singleton] at hp1
          have hps : p.2 = s.blocks.length := by
            rw [hp1]
          refine ⟨by omega, by simp only [List.length_cons]; omega⟩
      · have hb := h4 p hp2
        rw [hS5len] at hb
        exact ⟨by omega, by simp only [List.length_cons]; omega⟩
    · intro hex
      obtain ⟨c0, hc0, hy0⟩ := hex
      rcases List.mem_cons.mp hc0 with heq | hmem
      · rw [heq] at hy0
        cases hres : (lowerCaseBody l_addr c (enterBlock (newBlock s).2 s.blocks.length)).1 with
        | none =>
          rw [hres] at hcb_some
          rw [← hcb_some] at hy0
          simp at hy0
        | some v =>
          simp [hres]
      · have hne := h5 ⟨c0, hmem, hy0⟩
        intro hcon
        exact hne (List.append_eq_nil.mp hcon).2

/-- The wrapper case loop appends one block per case, each ending in a
branch to the end block; the parallel vals and blocks vectors have equal
length, the recorded blocks are case entry blocks, and when every arm
yields a value there is one entry per case. -/
theorem lowerCasesB_spec (l_addr : MVal) (end_block : Nat) :
    ∀ (cs : List (Option Unit × ARV)) (s : MState),
    (lowerCasesB l_addr end_block cs s).2.2.blocks.length =
      s.blocks.length + cs.length ∧
    (∀ id, id < s.blocks.length →
      (lowerCasesB l_addr end_block cs s).2.2.blocks.get? id =
        s.blocks.get? id) ∧
    (∀ i, i < cs.length → ∃ body,
      (lowerCasesB l_addr end_block cs s).2.2.blocks.get?
        (s.blocks.length + i) = some (body ++ [MInstr.br end_block])) ∧
    (lowerCasesB l_addr end_block cs s).1.length =
      (lowerCasesB l_addr end_block cs s).2.1.length ∧
    (∀ b ∈ (lowerCasesB l_addr end_block cs s).2.1,
      s.blocks.length ≤ b ∧ b < s.blocks.length + cs.length) ∧
    ((∀ c0 ∈ cs, yields c0.2 = true) →
      (lowerCasesB l_addr end_block cs s).2.1.length = cs.length) := by
  intro cs
  induction cs with
  | nil =>
    intro s
    refine ⟨by simp [lowerCasesB], fun id h => by simp [lowerCasesB],
      fun i hi => absurd hi (by simp), by simp [lowerCasesB],
      fun b hb => ?_, fun hall => by simp [lowerCasesB]⟩
    simp [lowerCasesB] at hb
  | cons c rest ih =>
    intro s
    simp only [lowerCasesB, newBlock_fst, emitInstr]
    obtain ⟨hcb_cur, hcb_len, hcb_ne, hcb_app, hcb_some⟩ :=
      lowerCaseBody_spec l_addr c (enterBlock (newBlock s).2 s.blocks.length)
    simp only [enterBlock_cur, enterBlock_blocks, newBlock_snd_blocks,
      List.length_append, List.length_cons, List.length_nil]
      at hcb_cur hcb_len hcb_ne hcb_app
    rw [hcb_cur]
    obtain ⟨h1, h2, h3, h4, h5, h6⟩ := ih (emitInstrAt (lowerCaseBody l_addr c (enterBlock (newBlock s).2 s.blocks.length)).2 s.blocks.length (MInstr.br end_block))
    have hS5len : (emitInstrAt (lowerCaseBody l_addr c (enterBlock (newBlock s).2 s.blocks.length)).2 s.blocks.length (MInstr.br end_block)).blocks.length = s.blocks.length + 1 := by
      rw [emitInstrAt_length]
      exact hcb_len
    have hS5ne : ∀ id, id < s.blocks.length →
        (emitInstrAt (lowerCaseBody l_addr c (enterBlock (newBlock s).2 s.blocks.length)).2 s.blocks.length (MInstr.br end_block)).blocks.get? id = s.blocks.get? id := by
      intro id hid
      rw [emitInstrAt_get_ne _ _ _ _ (by omega)]
      rw [hcb_ne id (by omega)]
      exact List.get?_append hid
    have hS5case : ∃ body, (emitInstrAt (lowerCaseBody l_addr c (enterBlock (newBlock s).2 s.blocks.length)).2 s.blocks.length (MInstr.br end_block)).blocks.get? s.blocks.length =
        some (body ++ [MInstr.br end_block]) := by
      obtain ⟨body, hbody⟩ := hcb_app [] (List.get?_concat_length _ _)
      refine ⟨body, ?_⟩
      have := emitInstrAt_get_eq _ _ (MInstr.br end_block) _ hbody
      simpa using this
    refine ⟨?_, ?_, ?_, ?_, ?_, ?_⟩
    · simp only [List.length_cons]
      rw [h1, hS5len]
      omega
    · intro id hid
      rw [h2 id (by omega)]
      exact hS5ne id hid
    · intro i hi
      cases i with
      | zero =>
        obtain ⟨body, hb⟩ := hS5case
        refine ⟨body, ?_⟩
        simp only [Nat.add_zero]
        rw [h2 s.blocks.length (by omega)]
        exact hb
      | succ j =>
        obtain ⟨body, hb⟩ := h3 j (by simp only [List.length_cons] at hi; omega)
        refine ⟨body, ?_⟩
        have heq : s.blocks.length + (j + 1) = (emitInstrAt (lowerCaseBody l_addr c (enterBlock (newBlock s).2 s.blocks.length)).2 s.blocks.length (MInstr.br end_block)).blocks.length + j := by
          rw [hS5len]
          omega
        rw [heq]
        exact hb
    · cases hres : (lowerCaseBody l_addr c (enterBlock (newBlock s).2 s.blocks.length)).1 with
      | none => simpa using h4
      | some v => simpa using h4
    · intro b hb
      rcases List.mem_append.mp hb with hb1 | hb2
      · cases hres : (lowerCaseBody l_addr c (enterBlock (newBlock s).2 s.blocks.length)).1 with
        | none =>
          rw [hres] at hb1
          simp at hb1
        | some v =>
          rw [hres] at hb1
          simp only [List.mem_singleton] at hb1
          subst hb1
          refine ⟨le_refl _, ?_⟩
          simp only [List.length_cons]
          omega
      · have hbb := h5 b hb2
        rw [hS5len] at hbb
        exact ⟨by omega, by simp only [List.length_cons]; omega⟩
    · intro hall
      have hhead : yields c.2 = true := hall c (List.mem_cons_self _ _)
      have hrest : (lowerCasesB l_addr end_block rest (emitInstrAt (lowerCaseBody l_addr c (enterBlock (newBlock s).2 s.blocks.length)).2 s.blocks.length (MInstr.br end_block))).2.1.length =
          rest.length :=
        h6 (fun c0 hc0 => hall c0 (List.mem_cons_of_mem _ hc0))
      cases hres : (lowerCaseBody l_addr c (enterBlock (newBlock s).2 s.blocks.length)).1 with
      | none =>
        rw [hres] at hcb_some
        rw [← hcb_some] at hhead
        simp at hhead
      | some v =>
        simp only [hres, List.singleton_append, List.length_cons, hrest]

/-- tag_to_block succeeds whenever the blocks vector is long enough. -/
theorem tagToBlocks_total (blocks : List Nat) :
    ∀ (k i : Nat), i + k ≤ blocks.length →
    ∃ pairs, tagToBlocks blocks i k = some pairs := by
  intro k
  induction k with
  | zero =>
    intro i h
    exact ⟨[], rfl⟩
  | succ k ih =>
    intro i h
    cases hb : blocks.get? i with
    | none =>
      have := List.get?_eq_none.mp hb
      omega
    | some b =>
      obtain ⟨rest, hrest⟩ := ih (i + 1) (by omega)
      refine ⟨(MVal.intC i, b) :: rest, ?_⟩
      simp only [tagToBlocks]
      rw [hb, hrest]

/-- C6 (amended): for every match with at least one value-yielding arm,
the sema implementation lowers each arm into its own block ending in a
branch to the end block, emits the switch defaulting to the end block
after the tag load in the start block, and merges the recorded arm values
in the end block with a phi carrying one extra incoming pair on the
switch-default edge whose value is undef and whose block is the switch
block.  The second implementation produces the same arm-block layout, but
the extra incoming value on the default edge is a zeroed constant rather
than undef, and it only completes when every arm yields a value. -/
theorem C6_match_phi_default_edge (addrSlot : Nat)
    (cases : List (Option Unit × ARV)) (s : MState)
    (hcur : s.cur < s.blocks.length)
    (hy : ∃ c ∈ cases, yields c.2 = true) :
    (∃ r sA phis tags pre,
      lowerMatchA addrSlot cases s = (some (MVal.reg r), sA) ∧
      sA.blocks.get? s.blocks.length =
        some [MInstr.phi r (phis ++ [(MVal.undef, s.cur)])] ∧
      phis ≠ [] ∧
      (∀ p ∈ phis, s.blocks.length + 1 ≤ p.2 ∧
        p.2 < s.blocks.length + 1 + cases.length) ∧
      sA.blocks.get? s.cur =
        some (pre ++ [MInstr.load s.nextReg (MVal.slotAddr addrSlot),
          MInstr.switch (MVal.reg s.nextReg) tags s.blocks.length]) ∧
      (∀ i, i < cases.length → ∃ body,
        sA.blocks.get? (s.blocks.length + 1 + i) =
          some (body ++ [MInstr.br s.blocks.length]))) ∧
    ((∀ c ∈ cases, yields c.2 = true) →
      ∃ r sB vals blks,
        lowerMatchB addrSlot cases s = some (some (MVal.reg r), sB) ∧
        sB.blocks.get? s.blocks.length =
          some [MInstr.phi r
            ((vals ++ [MVal.zeroinit]).zip (blks ++ [s.cur]))] ∧
        vals.length = blks.length ∧
        blks ≠ [] ∧
        (∀ b ∈ blks, s.blocks.length + 1 ≤ b ∧
          b < s.blocks.length + 1 + cases.length) ∧
        (∀ i, i < cases.length → ∃ body,
          sB.blocks.get? (s.blocks.length + 1 + i) =
            some (body ++ [MInstr.br s.blocks.length]))) := by
  obtain ⟨pre0, hpre⟩ : ∃ pre0, s.blocks.get? s.cur = some pre0 := by
    cases hp : s.blocks.get? s.cur with
    | none =>
      have := List.get?_eq_none.mp hp
      omega
    | some pre0 => exact ⟨pre0, rfl⟩
  constructor
  · -- sema implementation
    obtain ⟨hs1, hs2, hs3, hs4, hs5⟩ :=
      lowerCasesA_spec (MVal.slotAddr addrSlot) s.blocks.length cases 0 (emitInstrAt (freshReg (newBlock s).2).2 s.cur (MInstr.load s.nextReg (MVal.slotAddr addrSlot)))
    have hS2len : (emitInstrAt (freshReg (newBlock s).2).2 s.cur (MInstr.load s.nextReg (MVal.slotAddr addrSlot))).blocks.length = s.blocks.length + 1 := by
      simp
    have hpne : (lowerCasesA (MVal.slotAddr addrSlot) s.blocks.length cases 0 (emitInstrAt (freshReg (newBlock s).2).2 s.cur (MInstr.load s.nextReg (MVal.slotAddr addrSlot)))).2.1 ≠ [] := hs5 hy
    have hplen : (lowerCasesA (MVal.slotAddr addrSlot) s.blocks.length cases 0 (emitInstrAt (freshReg (newBlock s).2).2 s.cur (MInstr.load s.nextReg (MVal.slotAddr addrSlot)))).2.1.length > 0 := List.length_pos.mpr hpne
    have hpre2 : (freshReg (newBlock s).2).2.blocks.get? s.cur = some pre0 := by
      simp only [freshReg_snd_blocks, newBlock_snd_blocks]
      rw [List.get?_append hcur]
      exact hpre
    have hS2start : (emitInstrAt (freshReg (newBlock s).2).2 s.cur (MInstr.load s.nextReg (MVal.slotAddr addrSlot))).blocks.get? s.cur =
        some (pre0 ++ [MInstr.load s.nextReg (MVal.slotAddr addrSlot)]) :=
      emitInstrAt_get_eq _ _ _ pre0 hpre2
    have hRESstart : (lowerCasesA (MVal.slotAddr addrSlot) s.blocks.length cases 0 (emitInstrAt (freshReg (newBlock s).2).2 s.cur (MInstr.load s.nextReg (MVal.slotAddr addrSlot)))).2.2.blocks.get? s.cur =
        some (pre0 ++ [MInstr.load s.nextReg (MVal.slotAddr addrSlot)]) := by
      rw [hs2 s.cur (by omega)]
      exact hS2start
    have hS5start : (emitInstrAt (lowerCasesA (MVal.slotAddr addrSlot) s.blocks.length cases 0 (emitInstrAt (freshReg (newBlock s).2).2 s.cur (MInstr.load s.nextReg (MVal.slotAddr addrSlot)))).2.2 s.cur (MInstr.switch (MVal.reg s.nextReg) (lowerCasesA (MVal.slotAddr addrSlot) s.blocks.length cases 0 (emitInstrAt (freshReg (newBlock s).2).2 s.cur (MInstr.load s.nextReg (MVal.slotAddr addrSlot)))).1 s.blocks.length)).blocks.get? s.cur =
        some ((pre0 ++ [MInstr.load s.nextReg (MVal.slotAddr addrSlot)]) ++
          [MInstr.switch (MVal.reg s.nextReg) (lowerCasesA (MVal.slotAddr addrSlot) s.blocks.length cases 0 (emitInstrAt (freshReg (newBlock s).2).2 s.cur (MInstr.load s.nextReg (MVal.slotAddr addrSlot)))).1 s.blocks.length]) :=
      emitInstrAt_get_eq _ _ _ _ hRESstart
    have hS2end : (emitInstrAt (freshReg (newBlock s).2).2 s.cur (MInstr.load s.nextReg (MVal.slotAddr addrSlot))).blocks.get? s.blocks.length = some [] := by
      rw [emitInstrAt_get_ne _ _ _ _ (by omega)]
      simp only [freshReg_snd_blocks, newBlock_snd_blocks]
      exact List.get?_concat_length _ _
    have hRESend : (lowerCasesA (MVal.slotAddr addrSlot) s.blocks.length cases 0 (emitInstrAt (freshReg (newBlock s).2).2 s.cur (MInstr.load s.nextReg (MVal.slotAddr addrSlot)))).2.2.blocks.get? s.blocks.length = some [] := by
      rw [hs2 s.blocks.length (by omega)]
      exact hS2end
    have hS5end : (emitInstrAt (lowerCasesA (MVal.slotAddr addrSlot) s.blocks.length cases 0 (emitInstrAt (freshReg (newBlock s).2).2 s.cur (MInstr.load s.nextReg (MVal.slotAddr addrSlot)))).2.2 s.cur (MInstr.switch (MVal.reg s.nextReg) (lowerCasesA (MVal.slotAddr addrSlot) s.blocks.length cases 0 (emitInstrAt (freshReg (newBlock s).2).2 s.cur (MInstr.load s.nextReg (MVal.slotAddr addrSlot)))).1 s.blocks.length)).blocks.get? s.blocks.length = some [] := by
      rw [emitInstrAt_get_ne _ _ _ _ (by omega)]
      exact hRESend
    have hS6end : (freshReg (enterBlock (emitInstrAt (lowerCasesA (MVal.slotAddr addrSlot) s.blocks.length cases 0 (emitInstrAt (freshReg (newBlock s).2).2 s.cur (MInstr.load s.nextReg (MVal.slotAddr addrSlot)))).2.2 s.cur (MInstr.switch (MVal.reg s.nextReg) (lowerCasesA (MVal.slotAddr addrSlot) s.blocks.length cases 0 (emitInstrAt (freshReg (newBlock s).2).2 s.cur (MInstr.load s.nextReg (MVal.slotAddr addrSlot)))).1 s.blocks.length)) s.blocks.length)).2.blocks.get? s.blocks.length = some [] := by
      simp only [freshReg_snd_blocks, enterBlock_blocks]
      exact hS5end
    refine ⟨(lowerCasesA (MVal.slotAddr addrSlot) s.blocks.length cases 0 (emitInstrAt (freshReg (newBlock s).2).2 s.cur (MInstr.load s.nextReg (MVal.slotAddr addrSlot)))).2.2.nextReg, (emitInstrAt (freshReg (enterBlock (emitInstrAt (lowerCasesA (MVal.slotAddr addrSlot) s.blocks.length cases 0 (emitInstrAt (freshReg (newBlock s).2).2 s.cur (MInstr.load s.nextReg (MVal.slotAddr addrSlot)))).2.2 s.cur (MInstr.switch (MVal.reg s.nextReg) (lowerCasesA (MVal.slotAddr addrSlot) s.blocks.length cases 0 (emitInstrAt (freshReg (newBlock s).2).2 s.cur (MInstr.load s.nextReg (MVal.slotAddr addrSlot)))).1 s.blocks.length)) s.blocks.length)).2 s.blocks.length (MInstr.phi (lowerCasesA (MVal.slotAddr addrSlot) s.blocks.length cases 0 (emitInstrAt (freshReg (newBlock s).2).2 s.cur (MInstr.load s.nextReg (MVal.slotAddr addrSlot)))).2.2.nextReg ((lowerCasesA (MVal.slotAddr addrSlot) s.blocks.length cases 0 (emitInstrAt (freshReg (newBlock s).2).2 s.cur (MInstr.load s.nextReg (MVal.slotAddr addrSlot)))).2.1 ++ [(MVal.undef, s.cur)]))), (lowerCasesA (MVal.slotAddr addrSlot) s.blocks.length cases 0 (emitInstrAt (freshReg (newBlock s).2).2 s.cur (MInstr.load s.nextReg (MVal.slotAddr addrSlot)))).2.1, (lowerCasesA (MVal.slotAddr addrSlot) s.blocks.length cases 0 (emitInstrAt (freshReg (newBlock s).2).2 s.cur (MInstr.load s.nextReg (MVal.slotAddr addrSlot)))).1, pre0, ?_, ?_, hpne,
      ?_, ?_, ?_⟩
    · simp only [lowerMatchA, emitInstr, newBlock_fst, newBlock_snd_cur, newBlock_snd_nextReg, freshReg_fst, freshReg_snd_cur, enterBlock_cur, enterBlock_nextReg, emitInstrAt_cur, emitInstrAt_nextReg]
      rw [if_pos hplen]
    · have := emitInstrAt_get_eq (freshReg (enterBlock (emitInstrAt (lowerCasesA (MVal.slotAddr addrSlot) s.blocks.length cases 0 (emitInstrAt (freshReg (newBlock s).2).2 s.cur (MInstr.load s.nextReg (MVal.slotAddr addrSlot)))).2.2 s.cur (MInstr.switch (MVal.reg s.nextReg) (lowerCasesA (MVal.slotAddr addrSlot) s.blocks.length cases 0 (emitInstrAt (freshReg (newBlock s).2).2 s.cur (MInstr.load s.nextReg (MVal.slotAddr addrSlot)))).1 s.blocks.length)) s.blocks.length)).2 s.blocks.length
        (MInstr.phi (lowerCasesA (MVal.slotAddr addrSlot) s.blocks.length cases 0 (emitInstrAt (freshReg (newBlock s).2).2 s.cur (MInstr.load s.nextReg (MVal.slotAddr addrSlot)))).2.2.nextReg ((lowerCasesA (MVal.slotAddr addrSlot) s.blocks.length cases 0 (emitInstrAt (freshReg (newBlock s).2).2 s.cur (MInstr.load s.nextReg (MVal.slotAddr addrSlot)))).2.1 ++ [(MVal.undef, s.cur)]))
        [] hS6end
      simpa using this
    · intro p hp
      have hb := hs4 p hp
      rw [hS2len] at hb
      exact ⟨by omega, by omega⟩
    · rw [emitInstrAt_get_ne _ _ _ _ (by omega)]
      have hfb : (freshReg (enterBlock (emitInstrAt (lowerCasesA (MVal.slotAddr addrSlot) s.blocks.length cases 0 (emitInstrAt (freshReg (newBlock s).2).2 s.cur (MInstr.load s.nextReg (MVal.slotAddr addrSlot)))).2.2 s.cur (MInstr.switch (MVal.reg s.nextReg) (lowerCasesA (MVal.slotAddr addrSlot) s.blocks.length cases 0 (emitInstrAt (freshReg (newBlock s).2).2 s.cur (MInstr.load s.nextReg (MVal.slotAddr addrSlot)))).1 s.blocks.length)) s.blocks.length)).2.blocks.get? s.cur =
          (emitInstrAt (lowerCasesA (MVal.slotAddr addrSlot) s.blocks.length cases 0 (emitInstrAt (freshReg (newBlock s).2).2 s.cur (MInstr.load s.nextReg (MVal.slotAddr addrSlot)))).2.2 s.cur (MInstr.switch (MVal.reg s.nextReg) (lowerCasesA (MVal.slotAddr addrSlot) s.blocks.length cases 0 (emitInstrAt (freshReg (newBlock s).2).2 s.cur (MInstr.load s.nextReg (MVal.slotAddr addrSlot)))).1 s.blocks.length)).blocks.get? s.cur := by
        simp only [freshReg_snd_blocks, enterBlock_blocks]
      rw [hfb, hS5start]
      simp
    · intro i hi
      obtain ⟨body, hb⟩ := hs3 i hi
      rw [hS2len] at hb
      refine ⟨body, ?_⟩
      rw [emitInstrAt_get_ne _ _ _ _ (by omega)]
      have hfb : (freshReg (enterBlock (emitInstrAt (lowerCasesA (MVal.slotAddr addrSlot) s.blocks.length cases 0 (emitInstrAt (freshReg (newBlock s).2).2 s.cur (MInstr.load s.nextReg (MVal.slotAddr addrSlot)))).2.2 s.cur (MInstr.switch (MVal.reg s.nextReg) (lowerCasesA (MVal.slotAddr addrSlot) s.blocks.length cases 0 (emitInstrAt (freshReg (newBlock s).2).2 s.cur (MInstr.load s.nextReg (MVal.slotAddr addrSlot)))).1 s.blocks.length)) s.blocks.length)).2.blocks.get? (s.blocks.length + 1 + i) =
          (emitInstrAt (lowerCasesA (MVal.slotAddr addrSlot) s.blocks.length cases 0 (emitInstrAt (freshReg (newBlock s).2).2 s.cur (MInstr.load s.nextReg (MVal.slotAddr addrSlot)))).2.2 s.cur (MInstr.switch (MVal.reg s.nextReg) (lowerCasesA (MVal.slotAddr addrSlot) s.blocks.length cases 0 (emitInstrAt (freshReg (newBlock s).2).2 s.cur (MInstr.load s.nextReg (MVal.slotAddr addrSlot)))).1 s.blocks.length)).blocks.get? (s.blocks.length + 1 + i) := by
        simp only [freshReg_snd_blocks, enterBlock_blocks]
      rw [hfb, emitInstrAt_get_ne _ _ _ _ (by omega)]
      exact hb
  · -- wrapper implementation
    intro hall
    obtain ⟨hb1, hb2, hb3, hb4, hb5, hb6⟩ :=
      lowerCasesB_spec (MVal.slotAddr addrSlot) s.blocks.length cases
        (newBlock s).2
    simp only [newBlock_snd_blocks, List.length_append, List.length_cons,
      List.length_nil] at hb1 hb2 hb3 hb5 hb6
    have hblen : (lowerCasesB (MVal.slotAddr addrSlot) s.blocks.length cases (newBlock s).2).2.1.length = cases.length := hb6 hall
    have hcne : cases ≠ [] := by
      obtain ⟨c0, hc0, _⟩ := hy
      exact List.ne_nil_of_mem hc0
    have hclen : 0 < cases.length := List.length_pos.mpr hcne
    have hvlen : (lowerCasesB (MVal.slotAddr addrSlot) s.blocks.length cases (newBlock s).2).1.length > 0 := by
      rw [hb4, hblen]
      exact hclen
    obtain ⟨pairs, hpairs⟩ :=
      tagToBlocks_total (lowerCasesB (MVal.slotAddr addrSlot) s.blocks.length cases (newBlock s).2).2.1 cases.length 0 (by omega)
    have hBend0 : (lowerCasesB (MVal.slotAddr addrSlot) s.blocks.length cases (newBlock s).2).2.2.blocks.get? s.blocks.length = some [] := by
      rw [hb2 s.blocks.length (by omega)]
      exact List.get?_concat_length _ _
    have hT5end : (emitInstrAt (freshReg (enterBlock (lowerCasesB (MVal.slotAddr addrSlot) s.blocks.length cases (newBlock s).2).2.2 s.cur)).2 s.cur (MInstr.load (lowerCasesB (MVal.slotAddr addrSlot) s.blocks.length cases (newBlock s).2).2.2.nextReg (MVal.slotAddr addrSlot))).blocks.get? s.blocks.length = some [] := by
      rw [emitInstrAt_get_ne _ _ _ _ (by omega)]
      simp only [freshReg_snd_blocks, enterBlock_blocks]
      exact hBend0
    have hT6end : (emitInstrAt (emitInstrAt (freshReg (enterBlock (lowerCasesB (MVal.slotAddr addrSlot) s.blocks.length cases (newBlock s).2).2.2 s.cur)).2 s.cur (MInstr.load (lowerCasesB (MVal.slotAddr addrSlot) s.blocks.length cases (newBlock s).2).2.2.nextReg (MVal.slotAddr addrSlot))) s.cur (MInstr.switch
        (MVal.reg (lowerCasesB (MVal.slotAddr addrSlot) s.blocks.length cases (newBlock s).2).2.2.nextReg) pairs
        s.blocks.length)).blocks.get? s.blocks.length = some [] := by
      rw [emitInstrAt_get_ne _ _ _ _ (by omega)]
      exact hT5end
    refine ⟨(lowerCasesB (MVal.slotAddr addrSlot) s.blocks.length cases (newBlock s).2).2.2.nextReg + 1, (emitInstrAt (freshReg (enterBlock (emitInstrAt (emitInstrAt (freshReg (enterBlock (lowerCasesB (MVal.slotAddr addrSlot) s.blocks.length cases (newBlock s).2).2.2 s.cur)).2 s.cur (MInstr.load (lowerCasesB (MVal.slotAddr addrSlot) s.blocks.length cases (newBlock s).2).2.2.nextReg (MVal.slotAddr addrSlot))) s.cur (MInstr.switch (MVal.reg (lowerCasesB (MVal.slotAddr addrSlot) s.blocks.length cases (newBlock s).2).2.2.nextReg) pairs s.blocks.length)) s.blocks.length)).2 s.blocks.length (MInstr.phi ((lowerCasesB (MVal.slotAddr addrSlot) s.blocks.length cases (newBlock s).2).2.2.nextReg + 1) (((lowerCasesB (MVal.slotAddr addrSlot) s.blocks.length cases (newBlock s).2).1 ++ [MVal.zeroinit]).zip ((lowerCasesB (MVal.slotAddr addrSlot) s.blocks.length cases (newBlock s).2).2.1 ++ [s.cur])))), (lowerCasesB (MVal.slotAddr addrSlot) s.blocks.length cases (newBlock s).2).1, (lowerCasesB (MVal.slotAddr addrSlot) s.blocks.length cases (newBlock s).2).2.1, ?_, ?_, hb4, ?_, ?_, ?_⟩
    · simp only [lowerMatchB, emitInstr, newBlock_fst, newBlock_snd_cur, newBlock_snd_nextReg, freshReg_fst, freshReg_snd_cur, freshReg_snd_nextReg, enterBlock_cur, enterBlock_nextReg, emitInstrAt_cur, emitInstrAt_nextReg]
      rw [hpairs]
      simp only [if_pos hvlen]
    · have := emitInstrAt_get_eq (freshReg (enterBlock (emitInstrAt (emitInstrAt (freshReg (enterBlock (lowerCasesB (MVal.slotAddr addrSlot) s.blocks.length cases (newBlock s).2).2.2 s.cur)).2 s.cur (MInstr.load (lowerCasesB (MVal.slotAddr addrSlot) s.blocks.length cases (newBlock s).2).2.2.nextReg (MVal.slotAddr addrSlot)))
          s.cur (MInstr.switch (MVal.reg (lowerCasesB (MVal.slotAddr addrSlot) s.blocks.length cases (newBlock s).2).2.2.nextReg) pairs
          s.blocks.length)) s.blocks.length)).2 s.blocks.length
        (MInstr.phi ((lowerCasesB (MVal.slotAddr addrSlot) s.blocks.length cases (newBlock s).2).2.2.nextReg + 1)
          (((lowerCasesB (MVal.slotAddr addrSlot) s.blocks.length cases (newBlock s).2).1 ++ [MVal.zeroinit]).zip ((lowerCasesB (MVal.slotAddr addrSlot) s.blocks.length cases (newBlock s).2).2.1 ++ [s.cur])))
        [] (by
          simp only [freshReg_snd_blocks, enterBlock_blocks]
          exact hT6end)
      simpa using this
    · rw [← List.length_pos, hblen]
      exact hclen
    · intro b hbm
      have hbb := hb5 b hbm
      exact ⟨by omega, by omega⟩
    · intro i hi
      obtain ⟨body, hbody⟩ := hb3 i hi
      refine ⟨body, ?_⟩
      rw [emitInstrAt_get_ne _ _ _ _ (by omega)]
      have hfb : (freshReg (enterBlock (emitInstrAt (emitInstrAt (freshReg (enterBlock (lowerCasesB (MVal.slotAddr addrSlot) s.blocks.length cases (newBlock s).2).2.2 s.cur)).2 s.cur (MInstr.load (lowerCasesB (MVal.slotAddr addrSlot) s.blocks.length cases (newBlock s).2).2.2.nextReg (MVal.slotAddr addrSlot))) s.cur
          (MInstr.switch (MVal.reg (lowerCasesB (MVal.slotAddr addrSlot) s.blocks.length cases (newBlock s).2).2.2.nextReg) pairs
          s.blocks.length)) s.blocks.length)).2.blocks.get?
          (s.blocks.length + 1 + i) =
          (emitInstrAt (emitInstrAt (freshReg (enterBlock (lowerCasesB (MVal.slotAddr addrSlot) s.blocks.length cases (newBlock s).2).2.2 s.cur)).2 s.cur (MInstr.load (lowerCasesB (MVal.slotAddr addrSlot) s.blocks.length cases (newBlock s).2).2.2.nextReg (MVal.slotAddr addrSlot))) s.cur (MInstr.switch
            (MVal.reg (lowerCasesB (MVal.slotAddr addrSlot) s.blocks.length cases (newBlock s).2).2.2.nextReg) pairs
            s.blocks.length)).blocks.get? (s.blocks.length + 1 + i) := by
        simp only [freshReg_snd_blocks, enterBlock_blocks]
      rw [hfb, emitInstrAt_get_ne _ _ _ _ (by omega),
        emitInstrAt_get_ne _ _ _ _ (by omega)]
      have hfb2 : (freshReg (enterBlock (lowerCasesB (MVal.slotAddr addrSlot) s.blocks.length cases (newBlock s).2).2.2 s.cur)).2.blocks.get? (s.blocks.length + 1 + i) =
          (lowerCasesB (MVal.slotAddr addrSlot) s.blocks.length cases (newBlock s).2).2.2.blocks.get? (s.blocks.length + 1 + i) := by
        simp only [freshReg_snd_blocks, enterBlock_blocks]
      rw [hfb2]
      have : s.blocks.length + 1 + i = s.blocks.length + 1 + i := rfl
      exact hbody

theorem C6_match_phi_default_edge_witness :
    (∃ r sA phis tags pre,
      lowerMatchA 0 [(none, ARV.intLit 7)] ⟨[[]], 0, 0, []⟩ =
        (some (MVal.reg r), sA) ∧
      sA.blocks.get? 1 = some [MInstr.phi r (phis ++ [(MVal.undef, 0)])] ∧
      phis ≠ [] ∧
      (∀ p ∈ phis, 2 ≤ p.2 ∧ p.2 < 3) ∧
      sA.blocks.get? 0 =
        some (pre ++ [MInstr.load 0 (MVal.slotAddr 0),
          MInstr.switch (MVal.reg 0) tags 1]) ∧
      (∀ i, i < 1 → ∃ body,
        sA.blocks.get? (2 + i) = some (body ++ [MInstr.br 1]))) ∧
    ((∀ c ∈ [((none : Option Unit), ARV.intLit 7)], yields c.2 = true) →
      ∃ r sB vals blks,
        lowerMatchB 0 [(none, ARV.intLit 7)] ⟨[[]], 0, 0, []⟩ =
          some (some (MVal.reg r), sB) ∧
        sB.blocks.get? 1 =
          some [MInstr.phi r ((vals ++ [MVal.zeroinit]).zip (blks ++ [0]))] ∧
        vals.length = blks.length ∧
        blks ≠ [] ∧
        (∀ b ∈ blks, 2 ≤ b ∧ b < 3) ∧
        (∀ i, i < 1 → ∃ body,
          sB.blocks.get? (2 + i) = some (body ++ [MInstr.br 1]))) :=
  C6_match_phi_default_edge 0 [(none, ARV.intLit 7)] ⟨[[]], 0, 0, []⟩
    (by decide) ⟨(none, ARV.intLit 7), by simp, rfl⟩

theorem C7_union_layout_witness :
    (lower_union szDemo alDemo [] = some [] ∧
      lower_union_b szDemo alDemo [] = some []) ∧
    (∃ m us, m ∈ [LTy.int32] ∧ (∀ p ∈ [LTy.int32], alDemo p ≤ alDemo m) ∧
      (∀ p ∈ [LTy.int32], szDemo p ≤ us) ∧
      (∃ q ∈ [LTy.int32], szDemo q = us) ∧
      lower_union szDemo alDemo [LTy.int32] =
        some (if us - szDemo m > 0 then
          [m, LTy.arrTy LTy.int8 (us - szDemo m)] else [m])) ∧
    (∃ m us, m ∈ [LTy.int32] ∧ (∀ p ∈ [LTy.int32], alDemo p ≤ alDemo m) ∧
      (∀ p ∈ [LTy.int32], szDemo p ≤ us) ∧
      (∃ q ∈ [LTy.int32], szDemo q = us) ∧
      lower_union_b szDemo alDemo [LTy.int32] =
        some (if us - szDemo m > 0 then
          [m, LTy.arrTy LTy.int8 (us - szDemo m)] else [m])) :=
  C7_union_layout szDemo alDemo [LTy.int32] (by simp)
    (fun p hp => by
      simp at hp
      subst hp
      decide)

end Maple
